import Mathlib

/-!
Verification development for the Ada mobile reader
(server-side HTML normalization pipeline and client-side
link classification / commentary matching).

The definitions below are shallow embeddings of the JavaScript
source: the DOM is modelled as an inductive tree, DOM mutation as
pure tree rewriting, and each source function is translated into a
Lean function of the same name.
-/

namespace AdaMobile

/-! ## DOM model

Flow nodes (`FNode`) are the nodes that may appear inside a table
cell: text nodes and elements.  Document nodes (`Node`) additionally
include tables, whose rows are lists of cells; a cell has a tag
(normally "td"), attributes and flow-node children.  In the legacy
corpus handled by this system margin tables are never nested inside
table cells, which the model reflects by giving cells flow children.
-/

inductive FNode where
  | text (s : String)
  | elem (tag : String) (attrs : List (String × String)) (children : List FNode)

structure Cell where
  tag : String
  attrs : List (String × String)
  children : List FNode

abbrev Row := List Cell

inductive Node where
  | text (s : String)
  | elem (tag : String) (attrs : List (String × String)) (children : List Node)
  | table (attrs : List (String × String)) (rows : List Row)

/-- Attribute lookup: `el.getAttribute(k)` (first binding wins). -/
def getAttr (attrs : List (String × String)) (k : String) : Option String :=
  (attrs.find? (fun p => p.1 = k)).map Prod.snd

/-- `el.removeAttribute(k)`. -/
def removeAttr (attrs : List (String × String)) (k : String) : List (String × String) :=
  attrs.filter (fun p => p.1 ≠ k)

/-- `el.setAttribute(k, v)`: drop any old binding, append the new one. -/
def setAttr (attrs : List (String × String)) (k v : String) : List (String × String) :=
  removeAttr attrs k ++ [(k, v)]

/-- Does the element carry attribute `k` (CSS selector `[k]`)? -/
def hasAttr (attrs : List (String × String)) (k : String) : Bool :=
  (getAttr attrs k).isSome

/-! ## String utilities (JS semantics) -/

/-- The characters matched by the JS regex class `\s` (ASCII part). -/
def isJsWs (c : Char) : Bool :=
  c = ' ' || c = '\t' || c = '\n' || c = '\r' || c = Char.ofNat 11 || c = Char.ofNat 12

/-- `String.prototype.trim` on a character list. -/
def jsTrimL (l : List Char) : List Char :=
  ((l.dropWhile isJsWs).reverse.dropWhile isJsWs).reverse

/-- `String.prototype.trim`. -/
def jsTrim (s : String) : String :=
  String.mk (jsTrimL s.data)

/-- Worker for `collapseWs`; the flag records whether the previous
character was whitespace (so a run emits one space total). -/
def collapseWsAux : Bool → List Char → List Char
  | _, [] => []
  | prevWs, c :: cs =>
    if isJsWs c then
      if prevWs then collapseWsAux true cs
      else ' ' :: collapseWsAux true cs
    else c :: collapseWsAux false cs

/-- `str.replace(/\s+/g, ' ')`: collapse every whitespace run to one space. -/
def collapseWs (l : List Char) : List Char :=
  collapseWsAux false l

/-- Client-side `normalize`: collapse whitespace, trim, lower-case. -/
def normalize (s : String) : String :=
  String.mk ((jsTrimL (collapseWs s.data)).map Char.toLower)

/-- `String.prototype.toLowerCase` (ASCII range). -/
def jsToLower (s : String) : String :=
  String.mk (s.data.map Char.toLower)

/-- Is `p` a prefix of `s`? -/
def strPrefix (p s : String) : Bool :=
  p.data.isPrefixOf s.data

/-- Is `p` a suffix of `s`? -/
def strSuffix (p s : String) : Bool :=
  p.data.isSuffixOf s.data

/-- Case-insensitive test of the JS regex `^https?:\/\//i`. -/
def isHttpAbs (s : String) : Bool :=
  strPrefix "http://" (jsToLower s) || strPrefix "https://" (jsToLower s)

/-! ## URL model

The source uses the platform's WHATWG `new URL` parser.  The parser
itself is an external capability, modelled here for the http(s) URLs
this system manipulates: `none` models the constructor throwing. -/

/-- Split an absolute http(s) URL into its scheme part (as written,
up to and including "://") and the remainder. -/
def urlSchemeSplit (s : String) : Option (String × String) :=
  if strPrefix "http://" (jsToLower s) then
    some (String.mk (s.data.take 7), String.mk (s.data.drop 7))
  else if strPrefix "https://" (jsToLower s) then
    some (String.mk (s.data.take 8), String.mk (s.data.drop 8))
  else none

/-- Host and pathname of an absolute http(s) URL; `none` when the
parser would throw (non-http scheme or empty host). -/
def urlHostPath (s : String) : Option (String × String) :=
  match urlSchemeSplit s with
  | none => none
  | some (_, rest) =>
    match rest.data.findIdx? (fun c => c = '/') with
    | none => if rest = "" then none else some (rest, "/")
    | some 0 => none
    | some i => some (String.mk (rest.data.take i), String.mk (rest.data.drop i))

/-- `new URL(s).pathname`. -/
def urlPathname (s : String) : Option String :=
  (urlHostPath s).map Prod.snd

/-- The directory prefix of a pathname: everything up to and
including the last '/'. -/
def dirOf (p : String) : String :=
  String.mk (p.data.take (p.data.length - (p.data.reverse.takeWhile (fun c => c ≠ '/')).length))

/-- `new URL(src, base).toString()` for the references this system
resolves (path-relative and root-relative); `none` models a throw. -/
def resolveUrl (src base : String) : Option String :=
  if isHttpAbs src then some src
  else
    match urlSchemeSplit base, urlHostPath base, urlPathname base with
    | some (scheme, _), some (host, _), some path =>
      if strPrefix "/" src then some (scheme ++ host ++ src)
      else some (scheme ++ host ++ dirOf path ++ src)
    | _, _, _ => none

/-- `str.split('/')` on a character list. -/
def splitSlash : List Char → List (List Char)
  | [] => [[]]
  | c :: cs =>
    if c = '/' then [] :: splitSlash cs
    else
      match splitSlash cs with
      | [] => [[c]]
      | h :: t => (c :: h) :: t

/-- `s.split('/').pop()`: the last '/'-delimited segment. -/
def lastSeg (s : String) : String :=
  String.mk ((splitSlash s.data).getLastD [])

/-! ## Server transforms (final `server.js` revision)

Each transform walks the whole tree, mirroring the
`root.querySelectorAll(...)` traversals of the source. -/

/-- Is the tag one removed by `querySelectorAll('style, link')`? -/
def isStyleLinkTag (t : String) : Bool :=
  jsToLower t = "style" || jsToLower t = "link"

/-- First half of `stripLegacyStyling`: remove every style/link
element (with its subtree), on flow nodes. -/
def removeStyleLinkFs : List FNode → List FNode
  | [] => []
  | .text s :: rest => .text s :: removeStyleLinkFs rest
  | .elem t a cs :: rest =>
    if isStyleLinkTag t then removeStyleLinkFs rest
    else .elem t a (removeStyleLinkFs cs) :: removeStyleLinkFs rest

/-- Remove style/link elements inside a table row. -/
def removeStyleLinkRow (r : Row) : Row :=
  (r.filter (fun c => ¬ isStyleLinkTag c.tag)).map
    (fun c => { c with children := removeStyleLinkFs c.children })

/-- First half of `stripLegacyStyling` on document nodes. -/
def removeStyleLinkNs : List Node → List Node
  | [] => []
  | .text s :: rest => .text s :: removeStyleLinkNs rest
  | .elem t a cs :: rest =>
    if isStyleLinkTag t then removeStyleLinkNs rest
    else .elem t a (removeStyleLinkNs cs) :: removeStyleLinkNs rest
  | .table a rows :: rest =>
    .table a (rows.map removeStyleLinkRow) :: removeStyleLinkNs rest

/-- Second half of `stripLegacyStyling`: drop the `style` attribute
everywhere (`querySelectorAll('[style]')`), on flow nodes. -/
def stripStyleAttrFs : List FNode → List FNode
  | [] => []
  | .text s :: rest => .text s :: stripStyleAttrFs rest
  | .elem t a cs :: rest =>
    .elem t (removeAttr a "style") (stripStyleAttrFs cs) :: stripStyleAttrFs rest

/-- Drop the `style` attribute inside a table row. -/
def stripStyleAttrRow (r : Row) : Row :=
  r.map (fun c =>
    { c with attrs := removeAttr c.attrs "style", children := stripStyleAttrFs c.children })

/-- Second half of `stripLegacyStyling` on document nodes. -/
def stripStyleAttrNs : List Node → List Node
  | [] => []
  | .text s :: rest => .text s :: stripStyleAttrNs rest
  | .elem t a cs :: rest =>
    .elem t (removeAttr a "style") (stripStyleAttrNs cs) :: stripStyleAttrNs rest
  | .table a rows :: rest =>
    .table (removeAttr a "style") (rows.map stripStyleAttrRow) :: stripStyleAttrNs rest

/-- `stripLegacyStyling`: remove style/link elements, then remove
every inline `style` attribute. -/
def stripLegacyStyling (l : List Node) : List Node :=
  stripStyleAttrNs (removeStyleLinkNs l)

/-- `stripLineBreaks` on flow nodes: `querySelectorAll('br')` removal. -/
def stripLineBreaksFs : List FNode → List FNode
  | [] => []
  | .text s :: rest => .text s :: stripLineBreaksFs rest
  | .elem t a cs :: rest =>
    if jsToLower t = "br" then stripLineBreaksFs rest
    else .elem t a (stripLineBreaksFs cs) :: stripLineBreaksFs rest

/-- `stripLineBreaks` inside a table row. -/
def stripLineBreaksRow (r : Row) : Row :=
  (r.filter (fun c => jsToLower c.tag ≠ "br")).map
    (fun c => { c with children := stripLineBreaksFs c.children })

/-- `stripLineBreaks` on document nodes. -/
def stripLineBreaksNs : List Node → List Node
  | [] => []
  | .text s :: rest => .text s :: stripLineBreaksNs rest
  | .elem t a cs :: rest =>
    if jsToLower t = "br" then stripLineBreaksNs rest
    else .elem t a (stripLineBreaksNs cs) :: stripLineBreaksNs rest
  | .table a rows :: rest =>
    .table a (rows.map stripLineBreaksRow) :: stripLineBreaksNs rest

/-- `el.textContent` of a list of flow nodes. -/
def textContentFs : List FNode → String
  | [] => ""
  | .text s :: rest => s ++ textContentFs rest
  | .elem _ _ cs :: rest => textContentFs cs ++ textContentFs rest

/-- `el.textContent` of one flow node. -/
def textContentF : FNode → String
  | .text s => s
  | .elem _ _ cs => textContentFs cs

/-! ## Margin-Table Flattener (`flattenMarginTables`, final revision) -/

/-- Cell tag test (`tagName.toLowerCase() === 'td'`). -/
def tagIsTd (c : Cell) : Bool :=
  jsToLower c.tag = "td"

/-- One row of the detection predicate: exactly two cells
(`tr.children`), both `td`. -/
def rowTwoTds : Row → Bool
  | [c0, c1] => tagIsTd c0 && tagIsTd c1
  | _ => false

/-- Detection predicate of the flattener: every row has exactly two
cells, both `td`. -/
def allTwoCols (rows : List Row) : Bool :=
  rows.all rowTwoTds

/-- `<br>` element created by the flattener. -/
def brF : FNode := .elem "br" [] []

/-- The nodes the flattener appends to the wrapper for one row.
`idx` is the row's position in the table; the cells of the row are
taken in order (`tr.querySelectorAll('td')`), the first being the
margin cell, the second the content cell. -/
def flattenRowFs (idx : Nat) (r : Row) : List FNode :=
  match r.filter tagIsTd with
  | m :: c :: _ =>
    let hasMarker := jsTrim (textContentFs m.children) ≠ ""
    if idx = 0 then
      if hasMarker then m.children ++ [brF] ++ c.children
      else c.children
    else if hasMarker then
      brF :: (m.children ++ [brF] ++ c.children)
    else
      FNode.text " " :: c.children
  | _ => []

/-- The wrapper contents accumulated over the rows of a table,
`idx` counting from the given start index. -/
def flattenRowsAux : Nat → List Row → List FNode
  | _, [] => []
  | idx, r :: rs => flattenRowFs idx r ++ flattenRowsAux (idx + 1) rs

/-- Inject flow nodes back into document nodes (the wrapper that
replaces a table holds the cells' flow children). -/
def embedFs : List FNode → List Node
  | [] => []
  | .text s :: rest => Node.text s :: embedFs rest
  | .elem t a cs :: rest => Node.elem t a (embedFs cs) :: embedFs rest

/-- The `<p>` wrapper a qualifying table is replaced with. -/
def flattenedWrapper (rows : List Row) : Node :=
  Node.elem "p" [] (embedFs (flattenRowsAux 0 rows))

/-- `flattenMarginTables`: for every table, if it has at least one
row and every row has exactly two td cells, replace it with the
flowing wrapper; otherwise leave it untouched. -/
def flattenMarginTables : List Node → List Node
  | [] => []
  | .text s :: rest => .text s :: flattenMarginTables rest
  | .elem t a cs :: rest => .elem t a (flattenMarginTables cs) :: flattenMarginTables rest
  | .table a rows :: rest =>
    if rows.isEmpty then .table a rows :: flattenMarginTables rest
    else if allTwoCols rows then flattenedWrapper rows :: flattenMarginTables rest
    else .table a rows :: flattenMarginTables rest

/-! ## Image Normalizer (`fixImages`) -/

/-- The responsive presentation the source assigns through
`img.style.*`, as the serialized inline style attribute. -/
def imgStyleString : String :=
  "max-width: 100%; height: auto; display: block; margin: 12px auto"

/-- The attribute rewriting `fixImages` performs on one `img[src]`
element. -/
def fixImgAttrs (base : String) (a : List (String × String)) : List (String × String) :=
  match getAttr a "src" with
  | none => a
  | some src =>
    if src = "" then a
    else
      let a1 :=
        if isHttpAbs src then a
        else
          match resolveUrl src base with
          | some abs => setAttr a "src" abs
          | none => a
      setAttr (removeAttr (removeAttr a1 "width") "height") "style" imgStyleString

/-- Is this element matched by `querySelectorAll('img[src]')`? -/
def isImgTag (t : String) : Bool :=
  jsToLower t = "img"

/-- `fixImages` on flow nodes. -/
def fixImagesFs (base : String) : List FNode → List FNode
  | [] => []
  | .text s :: rest => .text s :: fixImagesFs base rest
  | .elem t a cs :: rest =>
    .elem t (if isImgTag t then fixImgAttrs base a else a) (fixImagesFs base cs)
      :: fixImagesFs base rest

/-- `fixImages` inside a table row. -/
def fixImagesRow (base : String) (r : Row) : Row :=
  r.map (fun c =>
    { c with
      attrs := if isImgTag c.tag then fixImgAttrs base c.attrs else c.attrs,
      children := fixImagesFs base c.children })

/-- `fixImages` on document nodes. -/
def fixImagesNs (base : String) : List Node → List Node
  | [] => []
  | .text s :: rest => .text s :: fixImagesNs base rest
  | .elem t a cs :: rest =>
    .elem t (if isImgTag t then fixImgAttrs base a else a) (fixImagesNs base cs)
      :: fixImagesNs base rest
  | .table a rows :: rest =>
    .table a (rows.map (fixImagesRow base)) :: fixImagesNs base rest

/-! ## Chapter pipeline (`GET /api/chapter/:id` processing order) -/

/-- The transform sequence the chapter handler applies to a located
root: `stripLegacyStyling`, `stripLineBreaks`, `flattenMarginTables`,
`fixImages`, in that order. -/
def chapterPipeline (base : String) (frag : List Node) : List Node :=
  fixImagesNs base (flattenMarginTables (stripLineBreaksNs (stripLegacyStyling frag)))

/-! ## Flattener: specification-side definitions

`specAssembly` restates, in the specification's own words, how the
replacement flowing block is assembled from the rows of a
margin-layout table; it is compared against the translation of the
source above. -/

/-- Emission for a row after the first, as the specification words
it: marker with non-empty trimmed text gives line break, marker,
line break, content; an empty marker gives a single space directly
followed by the content. -/
def specRowLater (r : Row) : List FNode :=
  match r with
  | m :: c :: _ =>
    if jsTrim (textContentFs m.children) = "" then FNode.text " " :: c.children
    else brF :: (m.children ++ [brF] ++ c.children)
  | _ => []

/-- Emission for row 0, as the specification words it. -/
def specRowZero (r : Row) : List FNode :=
  match r with
  | m :: c :: _ =>
    if jsTrim (textContentFs m.children) = "" then c.children
    else m.children ++ [brF] ++ c.children
  | _ => []

/-- The whole replacement block contents, as the specification words
it: row 0's emission followed by the later rows' emissions. -/
def specAssembly : List Row → List FNode
  | [] => []
  | r0 :: rest => specRowZero r0 ++ rest.flatMap specRowLater

/-- Concrete margin table used as a witness input. -/
def exMarginRows : List Row :=
  [[⟨"td", [], [FNode.text "  "]⟩, ⟨"td", [], [FNode.text "opening line"]⟩],
   [⟨"td", [], [FNode.text "3.05"]⟩, ⟨"td", [], [FNode.text "annotated line"]⟩]]

/-- The rewrite condition as claim C3 states it, read literally:
every row has exactly two cells, both td (vacuously true for a
rowless table). -/
def claimAllTwoCols (rows : List Row) : Prop :=
  ∀ r ∈ rows, ∃ c0 c1, r = [c0, c1] ∧ tagIsTd c0 = true ∧ tagIsTd c1 = true

/-- No table element anywhere in the forest. -/
def noTablesNs : List Node → Bool
  | [] => true
  | .text _ :: rest => noTablesNs rest
  | .elem _ _ cs :: rest => noTablesNs cs && noTablesNs rest
  | .table _ _ :: _ => false

/-- Every table in the forest passes the Flattener's own
classification: at least one row, every row exactly two td cells. -/
def goodTablesNs : List Node → Bool
  | [] => true
  | .text _ :: rest => goodTablesNs rest
  | .elem _ _ cs :: rest => goodTablesNs cs && goodTablesNs rest
  | .table _ rows :: rest => (!rows.isEmpty && allTwoCols rows) && goodTablesNs rest

/-- Claim C9's literal qualification: every table's every row has
exactly two cells (nothing said about rowless tables or cell tags). -/
def claimTwoCellTables : List Node → Bool
  | [] => true
  | .text _ :: rest => claimTwoCellTables rest
  | .elem _ _ cs :: rest => claimTwoCellTables cs && claimTwoCellTables rest
  | .table _ rows :: rest =>
    rows.all (fun r => r.length == 2) && claimTwoCellTables rest

/-! ## Style invariants (claim C2) -/

/-- Claim C2's invariant, read literally: no style element, no link
element, and no element at all carrying an inline style attribute. -/
def styleFreeFs : List FNode → Bool
  | [] => true
  | .text _ :: rest => styleFreeFs rest
  | .elem t a cs :: rest =>
    !isStyleLinkTag t && !hasAttr a "style" && styleFreeFs cs && styleFreeFs rest

/-- `styleFreeFs` for one table row. -/
def styleFreeRow (r : Row) : Bool :=
  r.all (fun c => !isStyleLinkTag c.tag && !hasAttr c.attrs "style" && styleFreeFs c.children)

/-- Claim C2's invariant on document nodes. -/
def styleFreeNs : List Node → Bool
  | [] => true
  | .text _ :: rest => styleFreeNs rest
  | .elem t a cs :: rest =>
    !isStyleLinkTag t && !hasAttr a "style" && styleFreeNs cs && styleFreeNs rest
  | .table a rows :: rest =>
    !hasAttr a "style" && rows.all styleFreeRow && styleFreeNs rest

/-- The invariant the pipeline actually guarantees: no style or link
element, and inline style attributes only on img elements. -/
def styleOkFs : List FNode → Bool
  | [] => true
  | .text _ :: rest => styleOkFs rest
  | .elem t a cs :: rest =>
    !isStyleLinkTag t && (!hasAttr a "style" || isImgTag t) && styleOkFs cs && styleOkFs rest

/-- `styleOkFs` for one table row. -/
def styleOkRow (r : Row) : Bool :=
  r.all (fun c =>
    !isStyleLinkTag c.tag && (!hasAttr c.attrs "style" || isImgTag c.tag) && styleOkFs c.children)

/-- The guaranteed invariant on document nodes. -/
def styleOkNs : List Node → Bool
  | [] => true
  | .text _ :: rest => styleOkNs rest
  | .elem t a cs :: rest =>
    !isStyleLinkTag t && (!hasAttr a "style" || isImgTag t) && styleOkNs cs && styleOkNs rest
  | .table a rows :: rest =>
    !hasAttr a "style" && rows.all styleOkRow && styleOkNs rest

/-- Tags-only part of the invariant: no style or link element. -/
def noStyleLinkFs : List FNode → Bool
  | [] => true
  | .text _ :: rest => noStyleLinkFs rest
  | .elem t _ cs :: rest => !isStyleLinkTag t && noStyleLinkFs cs && noStyleLinkFs rest

/-- `noStyleLinkFs` for one table row. -/
def noStyleLinkRow (r : Row) : Bool :=
  r.all (fun c => !isStyleLinkTag c.tag && noStyleLinkFs c.children)

/-- Tags-only part of the invariant on document nodes. -/
def noStyleLinkNs : List Node → Bool
  | [] => true
  | .text _ :: rest => noStyleLinkNs rest
  | .elem t _ cs :: rest => !isStyleLinkTag t && noStyleLinkNs cs && noStyleLinkNs rest
  | .table _ rows :: rest => rows.all noStyleLinkRow && noStyleLinkNs rest

/-! ## Chapter Catalog (`buildChapters`) -/

structure Chapter where
  id : String
  part : Nat
  chapter : Nat
  textUrl : String
  notesUrl : Option String
  title : String
deriving Repr, DecidableEq

/-- Chapter counts per part on AdaOnline. -/
def PART_CHAPTER_COUNTS (part : Nat) : Nat :=
  match part with
  | 1 => 43
  | 2 => 11
  | 3 => 8
  | 4 => 1
  | 5 => 6
  | _ => 0

/-- Which chapters actually have annotation pages. -/
def hasAnnotationPage (part chapter : Nat) : Bool :=
  if part = 1 ∧ 1 ≤ chapter ∧ chapter ≤ 43 then true
  else if part = 2 ∧ 1 ≤ chapter ∧ chapter ≤ 11 then true
  else if part = 3 ∧ 1 ≤ chapter ∧ chapter ≤ 2 then true
  else false

/-- `buildChapters`: the ordered catalog of chapter descriptors. -/
def buildChapters : List Chapter :=
  (List.range' 1 5).flatMap (fun part =>
    (List.range' 1 (PART_CHAPTER_COUNTS part)).map (fun ch =>
      let textId := if part = 4 then "4" else toString part ++ toString ch
      { id := "p" ++ toString part ++ "c" ++ toString ch
        part := part
        chapter := ch
        textUrl := "https://www.ada.auckland.ac.nz/ada" ++ textId ++ ".htm"
        notesUrl :=
          if hasAnnotationPage part ch then
            some ("https://www.ada.auckland.ac.nz/ada" ++ textId ++ "ann.htm")
          else none
        title :=
          if part = 4 then "Part 4"
          else "Part " ++ toString part ++ ", Chapter " ++ toString ch }))

/-- Are the (part, chapter) pairs in strictly increasing
lexicographic order (parts in order, chapters in order within each
part)? -/
def catalogOrdered : List (Nat × Nat) → Bool
  | [] => true
  | [_] => true
  | x :: y :: rest =>
    (x.1 < y.1 || (x.1 = y.1 && x.2 < y.2)) && catalogOrdered (y :: rest)

/-! ## Auxiliary reference route (`GET /api/ref/:file`) -/

/-- The character class `[0-9A-Za-z_-]` of the route's guard regex. -/
def isRefNameChar (c : Char) : Bool :=
  ('0' ≤ c && c ≤ '9') || ('A' ≤ c && c ≤ 'Z') || ('a' ≤ c && c ≤ 'z') || c = '_' || c = '-'

/-- Scanner for the rest of the guard regex after its first class
character: more class characters, then the literal extension ".htm"
and the end of the string (the string is lowercased beforehand, so
the regex's /i flag is accounted for). -/
def matchStem : List Char → Bool
  | [] => false
  | c :: cs =>
    if c = '.' then cs = ['h', 't', 'm']
    else isRefNameChar c && matchStem cs

/-- The route's filename validation `/^[0-9A-Za-z_-]+\.htm$/i`. -/
def validRefFile (s : String) : Bool :=
  match (jsToLower s).data with
  | [] => false
  | c :: cs => isRefNameChar c && matchStem cs

/-- The safe-name pattern as the claim words it: one or more
characters drawn from alphanumerics, underscore and hyphen, followed
by a ".htm" extension (case-insensitively). -/
def specSafeName (s : String) : Prop :=
  ∃ stem, stem ≠ [] ∧ (∀ c ∈ stem, isRefNameChar c = true) ∧
    (jsToLower s).data = stem ++ ['.', 'h', 't', 'm']

/-- Observable outcome of the reference route up to its upstream
fetch: either the InvalidReference rejection, or a fetch of the
derived upstream URL. -/
inductive RefResponse where
  | invalidReference
  | fetchUpstream (url : String)
deriving Repr, DecidableEq

/-- The `GET /api/ref/:file` handler up to its upstream fetch. -/
def refHandler (file : String) : RefResponse :=
  if validRefFile file then
    RefResponse.fetchUpstream ("https://www.ada.auckland.ac.nz/" ++ file)
  else RefResponse.invalidReference

/-! ## Client: href classification -/

/-- The source site's base URL (client constant `ADA_BASE`). -/
def ADA_BASE : String := "https://www.ada.auckland.ac.nz/"

/-- Does "ann.htm" start at this position? -/
def annSuffixAt : List Char → Bool
  | 'a' :: 'n' :: 'n' :: '.' :: 'h' :: 't' :: 'm' :: _ => true
  | _ => false

/-- One or more digits followed by "ann.htm" starting here. -/
def digitsThenAnn : List Char → Bool
  | [] => false
  | c :: cs =>
    if c.isDigit then
      if annSuffixAt cs then true else digitsThenAnn cs
    else false

/-- Does the annotation-file pattern "ada", digits, "ann.htm" start
at this position? -/
def adaAnnHere : List Char → Bool
  | 'a' :: 'd' :: 'a' :: rest => digitsThenAnn rest
  | _ => false

/-- Scanner for the regex `/ada\d+ann\.htm/i`: does the pattern
occur anywhere in the (lowercased) character list? -/
def hasAdaAnnPattern : List Char → Bool
  | [] => false
  | c :: cs => adaAnnHere (c :: cs) || hasAdaAnnPattern cs

/-- `isAdaNoteHref`: empty href, "#", same-page fragments, and
annotation-file names are annotation references. -/
def isAdaNoteHref (href : String) : Bool :=
  if href = "" then true
  else
    let h := jsTrim href
    if h = "" then true
    else if h = "#" then true
    else if strPrefix "#" h then true
    else hasAdaAnnPattern (jsToLower h).data

/-- Does ".htm" followed by '?', '#' or the end of the string start
at this position (regex `\.htm(\?|#|$)`)? -/
def htmThenDelim : List Char → Bool
  | '.' :: 'h' :: 't' :: 'm' :: [] => true
  | '.' :: 'h' :: 't' :: 'm' :: '?' :: _ => true
  | '.' :: 'h' :: 't' :: 'm' :: '#' :: _ => true
  | _ => false

/-- Scanner for `/\.htm(\?|#|$)/i` over the (lowercased) list. -/
def hasHtmDelim : List Char → Bool
  | [] => false
  | c :: cs => htmThenDelim (c :: cs) || hasHtmDelim cs

/-- `isRelativeAdaDoc`: same-host absolute URLs, or relative URLs
ending in ".htm" (optionally followed by query or fragment). -/
def isRelativeAdaDoc (href : String) : Bool :=
  if href = "" then false
  else if isHttpAbs href then
    strPrefix "http://www.ada.auckland.ac.nz" (jsToLower href) ||
      strPrefix "https://www.ada.auckland.ac.nz" (jsToLower href)
  else hasHtmDelim (jsToLower href).data

/-- `makeAdaAbsolute`: rebase a relative href on the source site. -/
def makeAdaAbsolute (href : String) : String :=
  if href = "" then ADA_BASE
  else if isHttpAbs href then href
  else ADA_BASE ++ String.mk (href.data.dropWhile (fun c => c = '/'))

/-- `s.indexOf(ch)`: position of the first occurrence. -/
def jsIndexOf : List Char → Char → Option Nat
  | [], _ => none
  | c :: cs, ch =>
    if c = ch then some 0
    else (jsIndexOf cs ch).map (· + 1)

/-- `normalizeAdaHref`: trim, strip query and fragment, take the
final path segment, lower-case; `none` when nothing is left. -/
def normalizeAdaHref (href : String) : Option String :=
  if href = "" then none
  else
    let s0 := jsTrim href
    if s0 = "" then none
    else
      let l := s0.data
      let cut :=
        min ((jsIndexOf l '#').getD l.length) ((jsIndexOf l '?').getD l.length)
      let s1 := String.mk (l.take cut)
      if s1 = "" then none
      else
        let s2 :=
          if isHttpAbs s1 then
            match urlPathname s1 with
            | some p => lastSeg p
            | none => s1
          else lastSeg s1
        let s3 := jsToLower s2
        if s3 = "" then none else some s3

/-- Href normalization as the specification words it: strip any
query string and fragment, take the final path segment (for
absolute URLs the last segment of the URL path, for relative hrefs
the last '/'-delimited segment), lower-case; an empty outcome
yields no key. -/
def specNormalizeHref (t : String) : Option String :=
  let stripped := String.mk (t.data.takeWhile (fun c => c ≠ '#' && c ≠ '?'))
  if stripped = "" then none
  else
    let seg :=
      if isHttpAbs stripped then
        match urlPathname stripped with
        | some p => lastSeg p
        | none => stripped
      else lastSeg stripped
    let low := jsToLower seg
    if low = "" then none else some low

/-- `buildChapterHrefMap`: map each chapter's source filename
(lower-cased last path segment of its text URL) to its id. -/
def buildChapterHrefMap (chapters : List Chapter) : List (String × String) :=
  chapters.foldl (fun map ch =>
    if ch.textUrl = "" then map
    else
      match urlPathname ch.textUrl with
      | none => map
      | some p =>
        let file := jsToLower (lastSeg p)
        if file = "" then map else setAttr map file ch.id) []

/-- `lookupChapterIdForHref`. -/
def lookupChapterIdForHref (cmap : List (String × String)) (href : String) : Option String :=
  match normalizeAdaHref href with
  | none => none
  | some key => getAttr cmap key

/-- The href index the client builds once per session. -/
def adaHrefMap : List (String × String) :=
  buildChapterHrefMap buildChapters

/-- A chapter's source filename: the lower-cased final path segment
of its text URL. -/
def fileKey (c : Chapter) : String :=
  match urlPathname c.textUrl with
  | some p => jsToLower (lastSeg p)
  | none => ""

/-- The four dispositions `wireTextLinks` assigns to an anchor. -/
inductive LinkDisposition where
  | note
  | chapterNav (id : String)
  | adaDoc (absUrl : String)
  | generic
deriving Repr, DecidableEq

/-- The per-anchor decision of `wireTextLinks`, rules evaluated in
order: annotation reference, chapter navigation, Ada document,
generic link. -/
def classifyTextLink (cmap : List (String × String)) (rawHref : String) : LinkDisposition :=
  if isAdaNoteHref rawHref then LinkDisposition.note
  else
    match lookupChapterIdForHref cmap rawHref with
    | some id => LinkDisposition.chapterNav id
    | none =>
      if isRelativeAdaDoc rawHref then LinkDisposition.adaDoc (makeAdaAbsolute rawHref)
      else LinkDisposition.generic

/-! ## Client: annotation snippet matcher (`findNoteSnippet`) -/

/-- Candidate block tags: `querySelectorAll('p, div, li, dd')`. -/
def isCandTag (t : String) : Bool :=
  jsToLower t = "p" || jsToLower t = "div" || jsToLower t = "li" || jsToLower t = "dd"

/-- Element test (`nextElementSibling` skips text nodes). -/
def isElemF : FNode → Bool
  | .elem _ _ _ => true
  | .text _ => false

/-- Candidates in document order, each paired with its following
element siblings. -/
def collectCands : List FNode → List (FNode × List FNode)
  | [] => []
  | .text _ :: rest => collectCands rest
  | .elem t a cs :: rest =>
    (if isCandTag t then [(FNode.elem t a cs, rest.filter isElemF)] else []) ++
      collectCands cs ++ collectCands rest

/-- Serialized attribute list (part of the outerHTML model). -/
def attrsHtml : List (String × String) → String
  | [] => ""
  | (k, v) :: rest => " " ++ k ++ "=\"" ++ v ++ "\"" ++ attrsHtml rest

/-- `innerHTML` of a list of flow nodes (serialization model). -/
def innerHTMLFs : List FNode → String
  | [] => ""
  | .text s :: rest => s ++ innerHTMLFs rest
  | .elem t a cs :: rest =>
    "<" ++ t ++ attrsHtml a ++ ">" ++ innerHTMLFs cs ++ "</" ++ t ++ ">" ++ innerHTMLFs rest

/-- `outerHTML` of one flow node. -/
def outerHTMLF : FNode → String
  | .text s => s
  | .elem t a cs => "<" ++ t ++ attrsHtml a ++ ">" ++ innerHTMLFs cs ++ "</" ++ t ++ ">"

/-- `haystack.indexOf(needle) !== -1`: is `p` a contiguous substring
of the list? -/
def isSubstrL (p : List Char) : List Char → Bool
  | [] => p.isEmpty
  | c :: cs => p.isPrefixOf (c :: cs) || isSubstrL p cs

/-- The score the selection loop gives one candidate: its normalized
text length when the text is non-empty and contains the phrase. -/
def noteCandScore (np : String) (el : FNode) : Option Nat :=
  let t := normalize (textContentF el)
  if t = "" then none
  else if isSubstrL np.data t.data then some t.length else none

/-- One iteration of the selection loop: replace the best-so-far
when this candidate scores strictly lower. -/
def betterAcc (np : String) (cand : FNode × List FNode)
    (acc : Option ((FNode × List FNode) × Nat)) : Option ((FNode × List FNode) × Nat) :=
  match noteCandScore np cand.1, acc with
  | some len, none => some (cand, len)
  | some len, some (b, bl) => if len < bl then some (cand, len) else some (b, bl)
  | none, a => a

/-- The candidate-selection loop of `findNoteSnippet`: keep the
first candidate of strictly smallest score. -/
def bestLoop (np : String) :
    List (FNode × List FNode) → Option ((FNode × List FNode) × Nat) →
      Option ((FNode × List FNode) × Nat)
  | [], acc => acc
  | cand :: rest, acc => bestLoop np rest (betterAcc np cand acc)

/-- The trailing-sibling walk: up to `k` further blocks, stopping
before the first sibling with empty normalized text. -/
def snippetSibs : Nat → List FNode → List String
  | 0, _ => []
  | _ + 1, [] => []
  | k + 1, n :: rest =>
    if normalize (textContentF n) = "" then []
    else outerHTMLF n :: snippetSibs k rest

/-- `buf.join('\n')`. -/
def joinLines : List String → String
  | [] => ""
  | s :: rest =>
    match rest with
    | [] => s
    | _ :: _ => s ++ "\n" ++ joinLines rest

/-- The snippet built from the matched block and its siblings. -/
def buildSnippet (el : FNode) (sibs : List FNode) : String :=
  joinLines (outerHTMLF el :: snippetSibs 3 sibs)

/-- `findNoteSnippet`: select the shortest matching candidate block
and return it plus up to three following siblings; empty string when
nothing matches. -/
def findNoteSnippet (phrase : String) (notes : List FNode) : String :=
  let normPhrase := normalize phrase
  if normPhrase = "" then ""
  else
    match bestLoop normPhrase (collectCands notes) none with
    | some (cand, _) => buildSnippet cand.1 cand.2
    | none =>
      let fullText := normalize (textContentFs notes)
      if isSubstrL normPhrase.data fullText.data then "" else ""

/-- Does the candidate's normalized text contain the (normalized)
phrase as a substring? -/
def candContains (np : String) (el : FNode) : Bool :=
  isSubstrL np.data (normalize (textContentF el)).data

/-- Concrete annotations fragment used in examples. -/
def exNotes : List FNode :=
  [FNode.elem "p" [] [FNode.text "hello world"]]

/-! ## Client: overlay state machine -/

structure OverlayEntry where
  html : String
  title : String
deriving Repr, DecidableEq

/-- The observable client overlay state: the stack plus the DOM
flags the render step maintains (`visible` and `has-stack` classes,
body scroll lock, panel content). -/
structure OverlayState where
  stack : List OverlayEntry
  visible : Bool
  hasStack : Bool
  modalOpen : Bool
  content : String
deriving Repr, DecidableEq

/-- The initial state: no overlay. -/
def initOverlay : OverlayState :=
  { stack := [], visible := false, hasStack := false, modalOpen := false, content := "" }

/-- `closeOverlayCompletely`. -/
def closeOverlayCompletely (_ : OverlayState) : OverlayState :=
  initOverlay

/-- `renderOverlay`: show the top entry; an empty stack closes. -/
def renderOverlay (st : OverlayState) : OverlayState :=
  if h : st.stack = [] then closeOverlayCompletely st
  else
    { st with
      visible := true
      hasStack := decide (1 < st.stack.length)
      modalOpen := true
      content := (st.stack.getLast h).html }

/-- `pushOverlay`: append an entry (with the placeholder for empty
html) and re-render. -/
def pushOverlay (st : OverlayState) (html title : String) : OverlayState :=
  renderOverlay
    { st with
      stack := st.stack ++
        [{ html := if html = "" then "<p>No commentary found.</p>" else html, title := title }] }

/-- `popOverlay`: drop the top entry when deeper than one, close
completely otherwise. -/
def popOverlay (st : OverlayState) : OverlayState :=
  if 1 < st.stack.length then renderOverlay { st with stack := st.stack.dropLast }
  else closeOverlayCompletely st

/-- The overlay states reachable from the initial state through the
source's three transitions. -/
inductive ReachableOv : OverlayState → Prop where
  | init : ReachableOv initOverlay
  | push (st : OverlayState) (html title : String) :
      ReachableOv st → ReachableOv (pushOverlay st html title)
  | pop (st : OverlayState) : ReachableOv st → ReachableOv (popOverlay st)
  | close (st : OverlayState) : ReachableOv st → ReachableOv (closeOverlayCompletely st)

/-! # Theorems -/

theorem rowTwoTds_iff (r : Row) :
    rowTwoTds r = true ↔
      ∃ c0 c1, r = [c0, c1] ∧ tagIsTd c0 = true ∧ tagIsTd c1 = true := by
  match r with
  | [] => simp [rowTwoTds]
  | [c0] => simp [rowTwoTds]
  | [c0, c1] =>
    simp only [rowTwoTds, Bool.and_eq_true]
    constructor
    · rintro ⟨h0, h1⟩; exact ⟨c0, c1, rfl, h0, h1⟩
    · rintro ⟨d0, d1, he, h0, h1⟩
      cases he; exact ⟨h0, h1⟩
  | c0 :: c1 :: c2 :: tl => simp [rowTwoTds]

theorem filter_td_pair {c0 c1 : Cell} (h0 : tagIsTd c0 = true) (h1 : tagIsTd c1 = true) :
    List.filter tagIsTd [c0, c1] = [c0, c1] := by
  simp [List.filter, h0, h1]

theorem flattenRowFs_zero {c0 c1 : Cell} (h0 : tagIsTd c0 = true) (h1 : tagIsTd c1 = true) :
    flattenRowFs 0 [c0, c1] = specRowZero [c0, c1] := by
  simp only [flattenRowFs, filter_td_pair h0 h1, specRowZero]
  by_cases hm : jsTrim (textContentFs c0.children) = "" <;> simp [hm]

theorem flattenRowFs_later {idx : Nat} (hidx : idx ≠ 0) {c0 c1 : Cell}
    (h0 : tagIsTd c0 = true) (h1 : tagIsTd c1 = true) :
    flattenRowFs idx [c0, c1] = specRowLater [c0, c1] := by
  simp only [flattenRowFs, filter_td_pair h0 h1, specRowLater, hidx, if_false]
  by_cases hm : jsTrim (textContentFs c0.children) = "" <;> simp [hm, hidx]

theorem flattenRowsAux_later {rows : List Row} (h : allTwoCols rows = true)
    {idx : Nat} (hidx : idx ≠ 0) :
    flattenRowsAux idx rows = rows.flatMap specRowLater := by
  induction rows generalizing idx with
  | nil => simp [flattenRowsAux]
  | cons r rs ih =>
    rw [allTwoCols, List.all_cons, Bool.and_eq_true] at h
    obtain ⟨c0, c1, he, h0, h1⟩ := (rowTwoTds_iff r).mp h.1
    subst he
    rw [flattenRowsAux, flattenRowFs_later hidx h0 h1, List.flatMap_cons,
      ih h.2 (Nat.succ_ne_zero idx)]

theorem flattenRowsAux_eq_specAssembly {rows : List Row} (h : allTwoCols rows = true) :
    flattenRowsAux 0 rows = specAssembly rows := by
  match rows with
  | [] => simp [flattenRowsAux, specAssembly]
  | r :: rs =>
    rw [allTwoCols, List.all_cons, Bool.and_eq_true] at h
    obtain ⟨c0, c1, he, h0, h1⟩ := (rowTwoTds_iff r).mp h.1
    subst he
    rw [flattenRowsAux, specAssembly, flattenRowFs_zero h0 h1,
      flattenRowsAux_later h.2 (Nat.succ_ne_zero 0)]

theorem flatten_margin_assembly (a : List (String × String)) (rows : List Row)
    (hne : rows ≠ []) (h : allTwoCols rows = true) :
    flattenMarginTables [Node.table a rows] =
      [Node.elem "p" [] (embedFs (specAssembly rows))] := by
  have hie : rows.isEmpty = false := by
    cases rows with
    | nil => exact absurd rfl hne
    | cons r rs => rfl
  simp [flattenMarginTables, hie, h, flattenedWrapper, flattenRowsAux_eq_specAssembly h]

theorem flatten_margin_assembly_witness :
    exMarginRows ≠ [] ∧ allTwoCols exMarginRows = true ∧
      flattenMarginTables [Node.table [] exMarginRows] =
        [Node.elem "p" [] (embedFs (specAssembly exMarginRows))] :=
  ⟨by simp [exMarginRows], by decide,
    flatten_margin_assembly [] exMarginRows (by simp [exMarginRows]) (by decide)⟩

theorem allTwoCols_iff (rows : List Row) :
    allTwoCols rows = true ↔ claimAllTwoCols rows := by
  rw [allTwoCols, List.all_eq_true, claimAllTwoCols]
  exact forall_congr' (fun r => forall_congr' (fun _ => rowTwoTds_iff r))

/-- Claim C3 as stated is false: a table with zero rows satisfies
"every row has exactly two td cells" vacuously, yet the Flattener
leaves it untouched — the output is the same table node, not the
rewritten flowing block. -/
theorem flatten_rewrite_iff_cex :
    claimAllTwoCols [] ∧
      flattenMarginTables [Node.table [] []] = [Node.table [] []] ∧
      Node.table ([] : List (String × String)) [] ≠ flattenedWrapper [] := by
  refine ⟨?_, by simp [flattenMarginTables], ?_⟩
  · intro r hr; simp at hr
  · simp [flattenedWrapper]

/-- Claim C3 amended: the Flattener rewrites a table into the
flowing block if and only if the table has at least one row and
every row has exactly two cells, both of tag td; every other table —
in particular any table where some row has a number of cells
different from two — is left structurally unchanged (same node, same
rows, same cells, same children). -/
theorem flatten_rewrite_iff (a : List (String × String)) (rows : List Row) :
    (flattenMarginTables [Node.table a rows] = [flattenedWrapper rows] ↔
      rows ≠ [] ∧ claimAllTwoCols rows) ∧
    (¬ (rows ≠ [] ∧ claimAllTwoCols rows) →
      flattenMarginTables [Node.table a rows] = [Node.table a rows]) := by
  by_cases he : rows = []
  · subst he
    constructor
    · simp [flattenMarginTables, flattenedWrapper]
    · intro _; simp [flattenMarginTables]
  · have hie : rows.isEmpty = false := by
      cases rows with
      | nil => exact absurd rfl he
      | cons r rs => rfl
    by_cases hc : allTwoCols rows = true
    · constructor
      · simp [flattenMarginTables, hie, hc, he, (allTwoCols_iff rows).mp hc]
      · intro hn
        exact absurd ⟨he, (allTwoCols_iff rows).mp hc⟩ hn
    · have hcl : ¬ claimAllTwoCols rows := fun hcl => hc ((allTwoCols_iff rows).mpr hcl)
      have hout : flattenMarginTables [Node.table a rows] = [Node.table a rows] := by
        rw [flattenMarginTables, hie]
        simp only [Bool.false_eq_true, if_false]
        rw [if_neg hc]
        simp [flattenMarginTables]
      constructor
      · rw [hout]
        simp [flattenedWrapper, hcl]
      · intro _
        exact hout

theorem flatten_rewrite_iff_witness :
    (¬ (([[]] : List Row) ≠ [] ∧ claimAllTwoCols [[]])) ∧
      flattenMarginTables [Node.table [] [[]]] = [Node.table [] [[]]] := by
  have hn : ¬ (([[]] : List Row) ≠ [] ∧ claimAllTwoCols [[]]) := by
    rintro ⟨-, hcl⟩
    obtain ⟨c0, c1, habs, -, -⟩ := hcl [] (by simp)
    exact (List.cons_ne_nil c0 [c1]).symm habs
  exact ⟨hn, (flatten_rewrite_iff [] [[]]).2 hn⟩

theorem noTables_embedFs : (fs : List FNode) → noTablesNs (embedFs fs) = true
  | [] => by simp [embedFs, noTablesNs]
  | .text s :: rest => by
    simp [embedFs, noTablesNs, noTables_embedFs rest]
  | .elem t a cs :: rest => by
    simp [embedFs, noTablesNs, noTables_embedFs cs, noTables_embedFs rest]

theorem flatten_noTables : (l : List Node) → goodTablesNs l = true →
    noTablesNs (flattenMarginTables l) = true
  | [], _ => by simp [flattenMarginTables, noTablesNs]
  | .text s :: rest, h => by
    rw [goodTablesNs] at h
    simpa [flattenMarginTables, noTablesNs] using flatten_noTables rest h
  | .elem t a cs :: rest, h => by
    rw [goodTablesNs, Bool.and_eq_true] at h
    simp [flattenMarginTables, noTablesNs, flatten_noTables cs h.1,
      flatten_noTables rest h.2]
  | .table a rows :: rest, h => by
    rw [goodTablesNs, Bool.and_eq_true, Bool.and_eq_true] at h
    obtain ⟨⟨hie, hc⟩, hrest⟩ := h
    have hie' : rows.isEmpty = false := by
      cases hb : rows.isEmpty
      · rfl
      · rw [hb] at hie; exact absurd hie (by simp)
    simp [flattenMarginTables, hie', hc, flattenedWrapper, noTablesNs,
      noTables_embedFs, flatten_noTables rest hrest]

theorem flatten_fixed_of_noTables : (l : List Node) → noTablesNs l = true →
    flattenMarginTables l = l
  | [], _ => by simp [flattenMarginTables]
  | .text s :: rest, h => by
    rw [noTablesNs] at h
    simp [flattenMarginTables, flatten_fixed_of_noTables rest h]
  | .elem t a cs :: rest, h => by
    rw [noTablesNs, Bool.and_eq_true] at h
    simp [flattenMarginTables, flatten_fixed_of_noTables cs h.1,
      flatten_fixed_of_noTables rest h.2]
  | .table a rows :: rest, h => by
    rw [noTablesNs] at h
    exact absurd h (by simp)

/-- Claim C9 as stated is false: in the tree consisting of one
rowless table, every table satisfies "every row has exactly two
cells" vacuously, yet the flattened output still contains a table
(so the output is not table-free). -/
theorem flatten_table_free_cex :
    claimTwoCellTables [Node.table [] []] = true ∧
      flattenMarginTables [Node.table [] []] = [Node.table [] []] ∧
      noTablesNs (flattenMarginTables [Node.table [] []]) = false := by
  refine ⟨by simp [claimTwoCellTables], by simp [flattenMarginTables], ?_⟩
  have h : flattenMarginTables [Node.table ([] : List (String × String)) []] =
      [Node.table [] []] := by simp [flattenMarginTables]
  rw [h]
  simp [noTablesNs]

/-- Claim C9 amended: for every tree whose tables all pass the
Flattener's margin-layout classification (at least one row, every
row exactly two td cells), the Flattener's output contains no table
elements, and running the Flattener again on that output changes
nothing. -/
theorem flatten_table_free_idem (l : List Node) (h : goodTablesNs l = true) :
    noTablesNs (flattenMarginTables l) = true ∧
      flattenMarginTables (flattenMarginTables l) = flattenMarginTables l := by
  have h1 := flatten_noTables l h
  exact ⟨h1, flatten_fixed_of_noTables _ h1⟩

theorem flatten_table_free_idem_witness :
    goodTablesNs [Node.table []
        [[⟨"td", [], []⟩, ⟨"td", [], [FNode.text "x"]⟩]]] = true ∧
      (noTablesNs (flattenMarginTables [Node.table []
          [[⟨"td", [], []⟩, ⟨"td", [], [FNode.text "x"]⟩]]]) = true ∧
        flattenMarginTables (flattenMarginTables [Node.table []
            [[⟨"td", [], []⟩, ⟨"td", [], [FNode.text "x"]⟩]]]) =
          flattenMarginTables [Node.table []
            [[⟨"td", [], []⟩, ⟨"td", [], [FNode.text "x"]⟩]]]) :=
  ⟨by simp [goodTablesNs]; decide, flatten_table_free_idem _ (by simp [goodTablesNs]; decide)⟩

theorem removeAttr_not_hasAttr (a : List (String × String)) (k : String) :
    hasAttr (removeAttr a k) k = false := by
  rw [hasAttr, getAttr]
  cases hfind : List.find? (fun p => p.1 = k) (removeAttr a k) with
  | none => simp
  | some q =>
    exfalso
    have hq := List.find?_some hfind
    have hmem := List.mem_of_find?_eq_some hfind
    rw [removeAttr, List.mem_filter] at hmem
    simp only [decide_eq_true_eq, ne_eq, decide_not, Bool.not_eq_true',
      decide_eq_false_iff_not] at hq hmem
    exact hmem.2 hq

theorem removeStyleLinkFs_ok : (l : List FNode) → noStyleLinkFs (removeStyleLinkFs l) = true
  | [] => by simp [removeStyleLinkFs, noStyleLinkFs]
  | .text s :: rest => by
    simp [removeStyleLinkFs, noStyleLinkFs, removeStyleLinkFs_ok rest]
  | .elem t a cs :: rest => by
    by_cases ht : isStyleLinkTag t = true
    · simp [removeStyleLinkFs, ht, removeStyleLinkFs_ok rest]
    · simp [removeStyleLinkFs, ht, noStyleLinkFs, removeStyleLinkFs_ok cs,
        removeStyleLinkFs_ok rest]

theorem removeStyleLinkRow_ok (r : Row) : noStyleLinkRow (removeStyleLinkRow r) = true := by
  rw [noStyleLinkRow, removeStyleLinkRow, List.all_eq_true]
  intro c hc
  rw [List.mem_map] at hc
  obtain ⟨c', hc', rfl⟩ := hc
  rw [List.mem_filter] at hc'
  simp only [removeStyleLinkFs_ok, Bool.and_true, decide_eq_true_eq] at hc' ⊢
  simpa using hc'.2

theorem removeStyleLinkNs_ok : (l : List Node) → noStyleLinkNs (removeStyleLinkNs l) = true
  | [] => by simp [removeStyleLinkNs, noStyleLinkNs]
  | .text s :: rest => by
    simp [removeStyleLinkNs, noStyleLinkNs, removeStyleLinkNs_ok rest]
  | .elem t a cs :: rest => by
    by_cases ht : isStyleLinkTag t = true
    · simp [removeStyleLinkNs, ht, removeStyleLinkNs_ok rest]
    · simp [removeStyleLinkNs, ht, noStyleLinkNs, removeStyleLinkNs_ok cs,
        removeStyleLinkNs_ok rest]
  | .table a rows :: rest => by
    simp [removeStyleLinkNs, noStyleLinkNs, removeStyleLinkNs_ok rest,
      removeStyleLinkRow_ok]

theorem stripStyleAttrFs_ok : (l : List FNode) → noStyleLinkFs l = true →
    styleFreeFs (stripStyleAttrFs l) = true
  | [], _ => by simp [stripStyleAttrFs, styleFreeFs]
  | .text s :: rest, h => by
    rw [noStyleLinkFs] at h
    simp [stripStyleAttrFs, styleFreeFs, stripStyleAttrFs_ok rest h]
  | .elem t a cs :: rest, h => by
    rw [noStyleLinkFs, Bool.and_eq_true, Bool.and_eq_true] at h
    simp [stripStyleAttrFs, styleFreeFs, h.1.1, removeAttr_not_hasAttr,
      stripStyleAttrFs_ok cs h.1.2, stripStyleAttrFs_ok rest h.2]

theorem stripStyleAttrRow_ok (r : Row) (h : noStyleLinkRow r = true) :
    styleFreeRow (stripStyleAttrRow r) = true := by
  rw [noStyleLinkRow, List.all_eq_true] at h
  rw [styleFreeRow, stripStyleAttrRow, List.all_eq_true]
  intro c hc
  rw [List.mem_map] at hc
  obtain ⟨c', hc', rfl⟩ := hc
  have h' := h c' hc'
  rw [Bool.and_eq_true] at h'
  simp [h'.1, removeAttr_not_hasAttr, stripStyleAttrFs_ok c'.children h'.2]

theorem stripStyleAttrNs_ok : (l : List Node) → noStyleLinkNs l = true →
    styleFreeNs (stripStyleAttrNs l) = true
  | [], _ => by simp [stripStyleAttrNs, styleFreeNs]
  | .text s :: rest, h => by
    rw [noStyleLinkNs] at h
    simp [stripStyleAttrNs, styleFreeNs, stripStyleAttrNs_ok rest h]
  | .elem t a cs :: rest, h => by
    rw [noStyleLinkNs, Bool.and_eq_true, Bool.and_eq_true] at h
    simp [stripStyleAttrNs, styleFreeNs, h.1.1, removeAttr_not_hasAttr,
      stripStyleAttrNs_ok cs h.1.2, stripStyleAttrNs_ok rest h.2]
  | .table a rows :: rest, h => by
    rw [noStyleLinkNs, Bool.and_eq_true, List.all_eq_true] at h
    rw [stripStyleAttrNs]
    simp only [styleFreeNs, Bool.and_eq_true]
    refine ⟨⟨by simp [removeAttr_not_hasAttr], ?_⟩, stripStyleAttrNs_ok rest h.2⟩
    rw [List.all_eq_true]
    intro r hr
    rw [List.mem_map] at hr
    obtain ⟨r', hr', rfl⟩ := hr
    exact stripStyleAttrRow_ok r' (h.1 r' hr')

theorem stripLegacyStyling_styleFree (l : List Node) :
    styleFreeNs (stripLegacyStyling l) = true :=
  stripStyleAttrNs_ok _ (removeStyleLinkNs_ok l)

theorem stripLineBreaksFs_styleFree : (l : List FNode) → styleFreeFs l = true →
    styleFreeFs (stripLineBreaksFs l) = true
  | [], _ => by simp [stripLineBreaksFs, styleFreeFs]
  | .text s :: rest, h => by
    simp only [styleFreeFs] at h
    simp [stripLineBreaksFs, styleFreeFs, stripLineBreaksFs_styleFree rest h]
  | .elem t a cs :: rest, h => by
    simp only [styleFreeFs, Bool.and_eq_true] at h
    obtain ⟨⟨⟨ht, ha⟩, hcs⟩, hrest⟩ := h
    by_cases hbr : jsToLower t = "br"
    · simp [stripLineBreaksFs, hbr, stripLineBreaksFs_styleFree rest hrest]
    · simp [stripLineBreaksFs, hbr, styleFreeFs, ht, ha,
        stripLineBreaksFs_styleFree cs hcs, stripLineBreaksFs_styleFree rest hrest]

theorem stripLineBreaksRow_styleFree (r : Row) (h : styleFreeRow r = true) :
    styleFreeRow (stripLineBreaksRow r) = true := by
  rw [styleFreeRow, List.all_eq_true] at h
  rw [styleFreeRow, stripLineBreaksRow, List.all_eq_true]
  intro c hc
  rw [List.mem_map] at hc
  obtain ⟨c', hc', rfl⟩ := hc
  have h' := h c' (List.mem_of_mem_filter hc')
  simp only [Bool.and_eq_true] at h'
  obtain ⟨⟨ht, ha⟩, hch⟩ := h'
  simp [ht, ha, stripLineBreaksFs_styleFree c'.children hch]

theorem stripLineBreaksNs_styleFree : (l : List Node) → styleFreeNs l = true →
    styleFreeNs (stripLineBreaksNs l) = true
  | [], _ => by simp [stripLineBreaksNs, styleFreeNs]
  | .text s :: rest, h => by
    simp only [styleFreeNs] at h
    simp [stripLineBreaksNs, styleFreeNs, stripLineBreaksNs_styleFree rest h]
  | .elem t a cs :: rest, h => by
    simp only [styleFreeNs, Bool.and_eq_true] at h
    obtain ⟨⟨⟨ht, ha⟩, hcs⟩, hrest⟩ := h
    by_cases hbr : jsToLower t = "br"
    · simp [stripLineBreaksNs, hbr, stripLineBreaksNs_styleFree rest hrest]
    · simp [stripLineBreaksNs, hbr, styleFreeNs, ht, ha,
        stripLineBreaksNs_styleFree cs hcs, stripLineBreaksNs_styleFree rest hrest]
  | .table a rows :: rest, h => by
    simp only [styleFreeNs, Bool.and_eq_true, List.all_eq_true] at h
    obtain ⟨⟨ha, hrows⟩, hrest⟩ := h
    rw [stripLineBreaksNs]
    simp only [styleFreeNs, Bool.and_eq_true, List.all_eq_true]
    refine ⟨⟨ha, ?_⟩, stripLineBreaksNs_styleFree rest hrest⟩
    intro r hr
    rw [List.mem_map] at hr
    obtain ⟨r', hr', rfl⟩ := hr
    exact stripLineBreaksRow_styleFree r' (hrows r' hr')

theorem styleFreeFs_append : (xs ys : List FNode) →
    styleFreeFs (xs ++ ys) = (styleFreeFs xs && styleFreeFs ys)
  | [], ys => by simp [styleFreeFs]
  | .text s :: rest, ys => by
    simp [styleFreeFs, styleFreeFs_append rest ys]
  | .elem t a cs :: rest, ys => by
    simp [styleFreeFs, styleFreeFs_append rest ys, Bool.and_assoc]

theorem embedFs_styleFree : (fs : List FNode) → styleFreeNs (embedFs fs) = styleFreeFs fs
  | [] => by simp [embedFs, styleFreeNs, styleFreeFs]
  | .text s :: rest => by
    simp [embedFs, styleFreeNs, styleFreeFs, embedFs_styleFree rest]
  | .elem t a cs :: rest => by
    simp [embedFs, styleFreeNs, styleFreeFs, embedFs_styleFree cs, embedFs_styleFree rest]

theorem flattenRowFs_styleFree (idx : Nat) (r : Row) (h : styleFreeRow r = true) :
    styleFreeFs (flattenRowFs idx r) = true := by
  rw [styleFreeRow, List.all_eq_true] at h
  rw [flattenRowFs]
  cases hf : List.filter tagIsTd r with
  | nil => simp [styleFreeFs]
  | cons m tl =>
    cases tl with
    | nil => simp [styleFreeFs]
    | cons c tl' =>
      have hm : m ∈ r := List.mem_of_mem_filter (hf ▸ List.mem_cons_self m (c :: tl'))
      have hc : c ∈ r :=
        List.mem_of_mem_filter (hf ▸ List.mem_cons_of_mem m (List.mem_cons_self c tl'))
      have hm' := h m hm
      have hc' := h c hc
      simp only [Bool.and_eq_true] at hm' hc'
      have hbr : isStyleLinkTag "br" = false := by decide
      have hsp : hasAttr ([] : List (String × String)) "style" = false := by decide
      by_cases hi : idx = 0 <;> by_cases hmk : jsTrim (textContentFs m.children) = "" <;>
        simp [hi, hmk, styleFreeFs_append, styleFreeFs, brF, hbr, hsp,
          hm'.2, hc'.2]

theorem flattenRowsAux_styleFree : (idx : Nat) → (rows : List Row) →
    rows.all styleFreeRow = true → styleFreeFs (flattenRowsAux idx rows) = true
  | _, [], _ => by simp [flattenRowsAux, styleFreeFs]
  | idx, r :: rs, h => by
    rw [List.all_cons, Bool.and_eq_true] at h
    rw [flattenRowsAux, styleFreeFs_append, flattenRowFs_styleFree idx r h.1,
      flattenRowsAux_styleFree (idx + 1) rs h.2]
    rfl

theorem flatten_styleFree : (l : List Node) → styleFreeNs l = true →
    styleFreeNs (flattenMarginTables l) = true
  | [], _ => by simp [flattenMarginTables, styleFreeNs]
  | .text s :: rest, h => by
    simp only [styleFreeNs] at h
    simp [flattenMarginTables, styleFreeNs, flatten_styleFree rest h]
  | .elem t a cs :: rest, h => by
    simp only [styleFreeNs, Bool.and_eq_true] at h
    obtain ⟨⟨⟨ht, ha⟩, hcs⟩, hrest⟩ := h
    simp [flattenMarginTables, styleFreeNs, ht, ha,
      flatten_styleFree cs hcs, flatten_styleFree rest hrest]
  | .table a rows :: rest, h => by
    simp only [styleFreeNs, Bool.and_eq_true] at h
    obtain ⟨⟨ha, hrows⟩, hrest⟩ := h
    by_cases hie : rows.isEmpty
    · simp [flattenMarginTables, hie, styleFreeNs, ha, hrows,
        flatten_styleFree rest hrest]
    · by_cases hc : allTwoCols rows = true
      · have hp : isStyleLinkTag "p" = false := by decide
        have hsp : hasAttr ([] : List (String × String)) "style" = false := by decide
        simp [flattenMarginTables, hie, hc, flattenedWrapper, styleFreeNs, hp, hsp,
          embedFs_styleFree, flattenRowsAux_styleFree 0 rows hrows,
          flatten_styleFree rest hrest]
      · simp [flattenMarginTables, hie, hc, styleFreeNs, ha, hrows,
          flatten_styleFree rest hrest]

theorem fixImagesFs_styleOk (base : String) : (l : List FNode) → styleFreeFs l = true →
    styleOkFs (fixImagesFs base l) = true
  | [], _ => by simp [fixImagesFs, styleOkFs]
  | .text s :: rest, h => by
    simp only [styleFreeFs] at h
    simp [fixImagesFs, styleOkFs, fixImagesFs_styleOk base rest h]
  | .elem t a cs :: rest, h => by
    simp only [styleFreeFs, Bool.and_eq_true] at h
    obtain ⟨⟨⟨ht, ha⟩, hcs⟩, hrest⟩ := h
    by_cases hi : isImgTag t = true
    · simp [fixImagesFs, hi, styleOkFs, ht,
        fixImagesFs_styleOk base cs hcs, fixImagesFs_styleOk base rest hrest]
    · simp [fixImagesFs, hi, styleOkFs, ht, ha,
        fixImagesFs_styleOk base cs hcs, fixImagesFs_styleOk base rest hrest]

theorem fixImagesRow_styleOk (base : String) (r : Row) (h : styleFreeRow r = true) :
    styleOkRow (fixImagesRow base r) = true := by
  rw [styleFreeRow, List.all_eq_true] at h
  rw [styleOkRow, fixImagesRow, List.all_eq_true]
  intro c hc
  rw [List.mem_map] at hc
  obtain ⟨c', hc', rfl⟩ := hc
  have h' := h c' hc'
  simp only [Bool.and_eq_true] at h'
  obtain ⟨⟨ht, ha⟩, hch⟩ := h'
  by_cases hi : isImgTag c'.tag = true
  · simp [hi, ht, fixImagesFs_styleOk base c'.children hch]
  · simp [hi, ht, ha, fixImagesFs_styleOk base c'.children hch]

theorem fixImagesNs_styleOk (base : String) : (l : List Node) → styleFreeNs l = true →
    styleOkNs (fixImagesNs base l) = true
  | [], _ => by simp [fixImagesNs, styleOkNs]
  | .text s :: rest, h => by
    simp only [styleFreeNs] at h
    simp [fixImagesNs, styleOkNs, fixImagesNs_styleOk base rest h]
  | .elem t a cs :: rest, h => by
    simp only [styleFreeNs, Bool.and_eq_true] at h
    obtain ⟨⟨⟨ht, ha⟩, hcs⟩, hrest⟩ := h
    by_cases hi : isImgTag t = true
    · simp [fixImagesNs, hi, styleOkNs, ht,
        fixImagesNs_styleOk base cs hcs, fixImagesNs_styleOk base rest hrest]
    · simp [fixImagesNs, hi, styleOkNs, ht, ha,
        fixImagesNs_styleOk base cs hcs, fixImagesNs_styleOk base rest hrest]
  | .table a rows :: rest, h => by
    simp only [styleFreeNs, Bool.and_eq_true, List.all_eq_true] at h
    obtain ⟨⟨ha, hrows⟩, hrest⟩ := h
    rw [fixImagesNs]
    simp only [styleOkNs, Bool.and_eq_true, List.all_eq_true]
    refine ⟨⟨ha, ?_⟩, fixImagesNs_styleOk base rest hrest⟩
    intro r hr
    rw [List.mem_map] at hr
    obtain ⟨r', hr', rfl⟩ := hr
    exact fixImagesRow_styleOk base r' (hrows r' hr')

/-- Claim C2 as stated is false: the image normalizer, the last
pipeline stage, assigns an inline style attribute (the responsive
presentation) to every image, so the normalized output of a document
containing an image does contain an element with a style attribute. -/
theorem chapterPipeline_styleFree_cex :
    styleFreeNs (chapterPipeline "https://www.ada.auckland.ac.nz/ada11.htm"
      [Node.elem "img" [("src", "http://x/y.jpg")] []]) = false := by
  have h1 : chapterPipeline "https://www.ada.auckland.ac.nz/ada11.htm"
      [Node.elem "img" [("src", "http://x/y.jpg")] []] =
      [Node.elem "img" [("src", "http://x/y.jpg"), ("style", imgStyleString)] []] := by
    simp [chapterPipeline, stripLegacyStyling, removeStyleLinkNs, stripStyleAttrNs,
      stripLineBreaksNs, flattenMarginTables, fixImagesNs, fixImgAttrs, isImgTag,
      isStyleLinkTag, jsToLower, getAttr, setAttr, removeAttr, isHttpAbs, strPrefix,
      List.find?, List.filter]
  rw [h1]
  simp [styleFreeNs, hasAttr, getAttr, List.find?]

/-- Claim C2 amended: every HTML fragment produced by the full
chapter pipeline (Cleaner, then line-break removal, then Flattener,
then Image Normalizer) contains no style element and no link
element, and the only elements carrying an inline style attribute
are images (the responsive presentation the Image Normalizer
applies). -/
theorem chapterPipeline_styleOk (base : String) (frag : List Node) :
    styleOkNs (chapterPipeline base frag) = true := by
  rw [chapterPipeline]
  exact fixImagesNs_styleOk base _
    (flatten_styleFree _
      (stripLineBreaksNs_styleFree _ (stripLegacyStyling_styleFree frag)))

set_option maxRecDepth 8000 in
/-- Claim C6: `buildChapters` returns exactly 69 descriptors
(43+11+8+1+6, parts in order, chapters in order within each part)
with pairwise-distinct ids of the form p-part-c-chapter; the source
filename token is "4" for part 4 and the concatenation of part and
chapter numbers for every other part; `notesUrl` is non-null exactly
for the pairs the page-existence rule (`hasAnnotationPage`) accepts;
and part 4's single descriptor has a text URL ending in "ada4.htm",
a null notes URL, and title "Part 4". -/
theorem buildChapters_catalog :
    buildChapters.length = 69 ∧
    (buildChapters.filter (fun c => c.part = 1)).length = 43 ∧
    (buildChapters.filter (fun c => c.part = 2)).length = 11 ∧
    (buildChapters.filter (fun c => c.part = 3)).length = 8 ∧
    (buildChapters.filter (fun c => c.part = 4)).length = 1 ∧
    (buildChapters.filter (fun c => c.part = 5)).length = 6 ∧
    catalogOrdered (buildChapters.map (fun c => (c.part, c.chapter))) = true ∧
    (buildChapters.map (fun c => c.id)).Nodup ∧
    buildChapters.all
      (fun c => c.id == "p" ++ toString c.part ++ "c" ++ toString c.chapter) = true ∧
    buildChapters.all
      (fun c => c.textUrl == "https://www.ada.auckland.ac.nz/ada" ++
        (if c.part = 4 then "4" else toString c.part ++ toString c.chapter) ++ ".htm") = true ∧
    buildChapters.all
      (fun c => c.notesUrl.isSome == hasAnnotationPage c.part c.chapter) = true ∧
    buildChapters.filter (fun c => c.part = 4) =
      [{ id := "p4c1", part := 4, chapter := 1
         textUrl := "https://www.ada.auckland.ac.nz/ada4.htm", notesUrl := none
         title := "Part 4" }] ∧
    strSuffix "ada4.htm" "https://www.ada.auckland.ac.nz/ada4.htm" = true := by
  refine ⟨by decide, by decide, by decide, by decide, by decide, by decide, by decide,
    by decide, by decide, by decide, by decide, by decide, by decide⟩

set_option maxRecDepth 8000 in
/-- Claim C10: the chapter href index maps every descriptor's source
filename (lower-cased final path segment of its text URL) back to
exactly that descriptor's id; the filename keys are pairwise
distinct across all 69 chapters; and looking a chapter's own source
filename up through href normalization yields that chapter's id. -/
theorem chapterHrefMap_roundtrip :
    (buildChapters.map fileKey).Nodup ∧
    ((adaHrefMap.map Prod.fst).Nodup ∧
      adaHrefMap.map Prod.fst = buildChapters.map fileKey) ∧
    buildChapters.all (fun c => getAttr adaHrefMap (fileKey c) == some c.id) = true ∧
    buildChapters.all
      (fun c => lookupChapterIdForHref adaHrefMap (fileKey c) == some c.id) = true := by
  refine ⟨by decide, ⟨by decide, by decide⟩, by decide, by decide⟩

theorem matchStem_iff : (l : List Char) →
    (matchStem l = true ↔
      ∃ stem, (∀ c ∈ stem, isRefNameChar c = true) ∧ l = stem ++ ['.', 'h', 't', 'm'])
  | [] => by
    constructor
    · intro h
      simp [matchStem] at h
    · rintro ⟨stem, -, habs⟩
      have := congrArg List.length habs
      simp at this
  | c :: cs => by
    by_cases hdot : c = '.'
    · subst hdot
      rw [matchStem, if_pos rfl]
      constructor
      · intro h
        exact ⟨[], by simp, by simp [of_decide_eq_true h]⟩
      · rintro ⟨stem, hclass, heq⟩
        cases stem with
        | nil =>
          simp only [List.nil_append, List.cons.injEq] at heq
          simp [heq.2]
        | cons d stem' =>
          have hd := hclass d (List.mem_cons_self d stem')
          rw [List.cons_append, List.cons.injEq] at heq
          rw [← heq.1] at hd
          exact absurd hd (by decide)
    · rw [matchStem, if_neg hdot]
      constructor
      · intro h
        rw [Bool.and_eq_true] at h
        obtain ⟨stem', hcl', heq'⟩ := (matchStem_iff cs).mp h.2
        refine ⟨c :: stem', ?_, by simp [heq']⟩
        intro x hx
        rcases List.mem_cons.mp hx with hx | hx
        · rw [hx]; exact h.1
        · exact hcl' x hx
      · rintro ⟨stem, hclass, heq⟩
        cases stem with
        | nil =>
          simp only [List.nil_append, List.cons.injEq] at heq
          exact absurd heq.1 hdot
        | cons d stem' =>
          rw [List.cons_append, List.cons.injEq] at heq
          rw [Bool.and_eq_true]
          refine ⟨heq.1 ▸ hclass d (List.mem_cons_self d stem'), ?_⟩
          exact (matchStem_iff cs).mpr
            ⟨stem', fun x hx => hclass x (List.mem_cons_of_mem d hx), heq.2⟩

theorem validRefFile_iff (s : String) : validRefFile s = true ↔ specSafeName s := by
  rw [validRefFile, specSafeName]
  cases hdata : (jsToLower s).data with
  | nil =>
    constructor
    · intro h
      simp at h
    · rintro ⟨stem, -, -, habs⟩
      have := congrArg List.length habs
      simp at this
  | cons c cs =>
    simp only
    constructor
    · intro h
      rw [Bool.and_eq_true] at h
      obtain ⟨stem', hcl', heq'⟩ := (matchStem_iff cs).mp h.2
      refine ⟨c :: stem', by simp, ?_, by simp [heq']⟩
      intro x hx
      rcases List.mem_cons.mp hx with hx | hx
      · rw [hx]; exact h.1
      · exact hcl' x hx
    · rintro ⟨stem, hne, hclass, heq⟩
      cases stem with
      | nil => exact absurd rfl hne
      | cons d stem' =>
        rw [List.cons_append, List.cons.injEq] at heq
        rw [Bool.and_eq_true]
        refine ⟨heq.1 ▸ hclass d (List.mem_cons_self d stem'), ?_⟩
        exact (matchStem_iff cs).mpr
          ⟨stem', fun x hx => hclass x (List.mem_cons_of_mem d hx), heq.2⟩

/-- Claim C7: the auxiliary reference operation rejects a request
with InvalidReference (HTTP 400) if and only if the requested
filename does not consist of one or more characters drawn from
alphanumerics, underscore and hyphen followed by a ".htm" extension;
in particular "../../etc" and "x.php" are rejected; and no upstream
fetch is attempted for a rejected filename (the handler yields the
rejection, not a fetch). -/
theorem refHandler_invalid_iff :
    (∀ f : String, refHandler f = RefResponse.invalidReference ↔ ¬ specSafeName f) ∧
    refHandler "../../etc" = RefResponse.invalidReference ∧
    refHandler "x.php" = RefResponse.invalidReference := by
  refine ⟨?_, by decide, by decide⟩
  intro f
  rw [refHandler]
  by_cases hv : validRefFile f = true
  · simp only [hv, if_true]
    constructor
    · intro habs
      exact absurd habs (by simp)
    · intro hns
      exact absurd ((validRefFile_iff f).mp hv) hns
  · simp only [hv, if_false]
    constructor
    · intro _
      exact fun hs => hv ((validRefFile_iff f).mpr hs)
    · intro _
      rfl

theorem refHandler_invalid_iff_witness :
    refHandler "x.php" = RefResponse.invalidReference ∧ ¬ specSafeName "x.php" :=
  ⟨refHandler_invalid_iff.2.2,
    (refHandler_invalid_iff.1 "x.php").mp refHandler_invalid_iff.2.2⟩

theorem getD_map_succ (o : Option Nat) (n : Nat) :
    (o.map (· + 1)).getD (n + 1) = o.getD n + 1 := by
  cases o <;> rfl

theorem take_minIdx_eq_takeWhile : (l : List Char) →
    l.take (min ((jsIndexOf l '#').getD l.length) ((jsIndexOf l '?').getD l.length)) =
      l.takeWhile (fun c => c ≠ '#' && c ≠ '?')
  | [] => by simp [jsIndexOf]
  | c :: cs => by
    by_cases h1 : c = '#'
    · subst h1
      rw [show jsIndexOf ('#' :: cs) '#' = some 0 by rw [jsIndexOf, if_pos rfl]]
      simp [List.takeWhile_cons]
    · by_cases h2 : c = '?'
      · subst h2
        rw [show jsIndexOf ('?' :: cs) '?' = some 0 by rw [jsIndexOf, if_pos rfl]]
        simp [List.takeWhile_cons]
      · rw [show jsIndexOf (c :: cs) '#' = (jsIndexOf cs '#').map (· + 1) by
            rw [jsIndexOf, if_neg h1],
          show jsIndexOf (c :: cs) '?' = (jsIndexOf cs '?').map (· + 1) by
            rw [jsIndexOf, if_neg h2],
          List.length_cons, getD_map_succ, getD_map_succ]
        rw [show min ((jsIndexOf cs '#').getD cs.length + 1)
              ((jsIndexOf cs '?').getD cs.length + 1) =
            min ((jsIndexOf cs '#').getD cs.length)
              ((jsIndexOf cs '?').getD cs.length) + 1 by omega]
        rw [List.take_succ_cons, List.takeWhile_cons, if_pos (by simp [h1, h2]),
          take_minIdx_eq_takeWhile cs]

theorem normalizeAdaHref_eq_spec (h : String) (htrim : jsTrim h = h) :
    normalizeAdaHref h = specNormalizeHref h := by
  by_cases he : h = ""
  · subst he
    rfl
  · rw [normalizeAdaHref, if_neg he, htrim, specNormalizeHref]
    simp only [if_neg he]
    rw [take_minIdx_eq_takeWhile h.data]

theorem dropWhile_append_last {c : Char} (hc : isJsWs c = false) :
    (xs : List Char) → ∃ zs, (xs ++ [c]).dropWhile isJsWs = zs ++ [c]
  | [] => ⟨[], by simp [List.dropWhile_cons, hc]⟩
  | x :: xs => by
    by_cases hx : isJsWs x = true
    · obtain ⟨zs, hz⟩ := dropWhile_append_last hc xs
      exact ⟨zs, by rw [List.cons_append, List.dropWhile_cons, if_pos hx, hz]⟩
    · exact ⟨x :: xs, by
        rw [List.cons_append, List.dropWhile_cons, if_neg hx]⟩

theorem jsTrimL_hash (t : List Char) : ∃ u, jsTrimL ('#' :: t) = '#' :: u := by
  rw [jsTrimL, List.dropWhile_cons, if_neg (by decide)]
  rw [show ('#' :: t).reverse = t.reverse ++ ['#'] by simp]
  obtain ⟨zs, hz⟩ := @dropWhile_append_last '#' (by decide) t.reverse
  rw [hz]
  exact ⟨zs.reverse, by simp⟩

theorem hash_prefix_data {h : String} (hp : strPrefix "#" h = true) :
    ∃ rest, h.data = '#' :: rest := by
  rw [strPrefix] at hp
  cases hd : h.data with
  | nil =>
    rw [hd] at hp
    simp [List.isPrefixOf] at hp
  | cons c rest =>
    rw [hd] at hp
    simp only [List.isPrefixOf, Bool.and_eq_true, beq_iff_eq] at hp
    exact ⟨rest, by rw [hp.1]⟩

theorem isAdaNoteHref_fragment (h : String)
    (hcase : h = "" ∨ h = "#" ∨ strPrefix "#" h = true) :
    isAdaNoteHref h = true := by
  rcases hcase with rfl | rfl | hp
  · decide
  · decide
  · rw [isAdaNoteHref]
    by_cases he : h = ""
    · simp [he]
    · rw [if_neg he]
      obtain ⟨rest, hd⟩ := hash_prefix_data hp
      obtain ⟨u, hu⟩ := jsTrimL_hash rest
      have hjt : (jsTrim h).data = '#' :: u := by
        rw [jsTrim, hd, hu]
      by_cases h1 : jsTrim h = ""
      · rw [h1] at hjt
        simp at hjt
      · rw [if_neg h1]
        by_cases h2 : jsTrim h = "#"
        · simp [h2]
        · rw [if_neg h2]
          have hpre : strPrefix "#" (jsTrim h) = true := by
            rw [strPrefix, hjt]
            simp [List.isPrefixOf]
          rw [if_pos hpre]

/-- Claim C5: href normalization strips any query string and
fragment, takes the final path segment (the last URL path segment
for absolute URLs, the last '/'-delimited segment for relative
hrefs) and lower-cases it — proven by equivalence with a normalizer
written from the specification's words; in particular
"ADA12.HTM?x=1#y" normalizes to "ada12.htm" and
"https://www.ada.auckland.ac.nz/ADA21.htm" to "ada21.htm"; and
every anchor whose href is empty, "#", or any same-page fragment
reference starting with "#" is classified by rule 1 as an
annotation reference, never as chapter navigation. -/
theorem normalizeAdaHref_spec :
    (∀ h : String, jsTrim h = h → normalizeAdaHref h = specNormalizeHref h) ∧
    normalizeAdaHref "ADA12.HTM?x=1#y" = some "ada12.htm" ∧
    normalizeAdaHref "https://www.ada.auckland.ac.nz/ADA21.htm" = some "ada21.htm" ∧
    (∀ (cmap : List (String × String)) (h : String),
      h = "" ∨ h = "#" ∨ strPrefix "#" h = true →
        isAdaNoteHref h = true ∧ classifyTextLink cmap h = LinkDisposition.note) := by
  refine ⟨normalizeAdaHref_eq_spec, by decide, by decide, ?_⟩
  intro cmap h hcase
  have hnote := isAdaNoteHref_fragment h hcase
  exact ⟨hnote, by rw [classifyTextLink, if_pos hnote]⟩

theorem normalizeAdaHref_spec_witness :
    (jsTrim "ADA12.HTM?x=1#y" = "ADA12.HTM?x=1#y" ∧
      normalizeAdaHref "ADA12.HTM?x=1#y" = specNormalizeHref "ADA12.HTM?x=1#y") ∧
    (isAdaNoteHref "#note3" = true ∧
      classifyTextLink [("ada12.htm", "p1c2")] "#note3" = LinkDisposition.note) :=
  ⟨⟨by decide, normalizeAdaHref_spec.1 "ADA12.HTM?x=1#y" (by decide)⟩,
    normalizeAdaHref_spec.2.2.2 [("ada12.htm", "p1c2")] "#note3"
      (Or.inr (Or.inr (by decide)))⟩

theorem renderOverlay_ne (st : OverlayState) (h : st.stack ≠ []) :
    renderOverlay st =
      { st with
        visible := true
        hasStack := decide (1 < st.stack.length)
        modalOpen := true
        content := (st.stack.getLast h).html } := by
  rw [renderOverlay, dif_neg h]

/-- Claim C8: starting from the empty stack, push always increases
depth by one and makes the overlay visible; pop at depth greater
than one removes exactly the top entry and stays visible; pop at
depth one and closeCompletely both empty the stack and hide the
overlay; push, push, pop leaves exactly one entry, visible, with the
back affordance hidden; and in every reachable state the back
affordance is shown exactly when depth exceeds one and the overlay
is visible exactly when depth is at least one. -/
theorem overlay_state_machine :
    (∀ (st : OverlayState) (html title : String),
      (pushOverlay st html title).stack.length = st.stack.length + 1 ∧
        (pushOverlay st html title).visible = true) ∧
    (∀ st : OverlayState, 1 < st.stack.length →
      (popOverlay st).stack = st.stack.dropLast ∧ (popOverlay st).visible = true) ∧
    (∀ st : OverlayState, st.stack.length = 1 → popOverlay st = initOverlay) ∧
    (∀ st : OverlayState, closeOverlayCompletely st = initOverlay) ∧
    (∀ h1 t1 h2 t2 : String,
      (popOverlay (pushOverlay (pushOverlay initOverlay h1 t1) h2 t2)).stack.length = 1 ∧
        (popOverlay (pushOverlay (pushOverlay initOverlay h1 t1) h2 t2)).visible = true ∧
        (popOverlay (pushOverlay (pushOverlay initOverlay h1 t1) h2 t2)).hasStack = false) ∧
    (∀ st : OverlayState, ReachableOv st →
      ((st.visible = true) ↔ 1 ≤ st.stack.length) ∧
        st.hasStack = decide (1 < st.stack.length)) := by
  have hpush : ∀ (st : OverlayState) (html title : String),
      (pushOverlay st html title).stack.length = st.stack.length + 1 ∧
        (pushOverlay st html title).visible = true := by
    intro st html title
    rw [pushOverlay, renderOverlay_ne _ (by simp)]
    simp
  have hpop : ∀ st : OverlayState, 1 < st.stack.length →
      (popOverlay st).stack = st.stack.dropLast ∧ (popOverlay st).visible = true := by
    intro st h
    have hne : st.stack.dropLast ≠ [] := by
      intro habs
      have := congrArg List.length habs
      rw [List.length_dropLast] at this
      simp at this
      omega
    rw [popOverlay, if_pos h, renderOverlay_ne _ hne]
    exact ⟨rfl, rfl⟩
  have hpop1 : ∀ st : OverlayState, st.stack.length = 1 → popOverlay st = initOverlay := by
    intro st h
    rw [popOverlay, if_neg (by omega)]
    rfl
  refine ⟨hpush, hpop, hpop1, fun _ => rfl, ?_, ?_⟩
  · intro h1 t1 h2 t2
    have l1 := (hpush initOverlay h1 t1).1
    have l2 := (hpush (pushOverlay initOverlay h1 t1) h2 t2).1
    have hgt : 1 < (pushOverlay (pushOverlay initOverlay h1 t1) h2 t2).stack.length := by
      rw [l2, l1]; simp [initOverlay]
    obtain ⟨hst, hvis⟩ := hpop _ hgt
    have hlen : (popOverlay (pushOverlay (pushOverlay initOverlay h1 t1) h2 t2)).stack.length
        = 1 := by
      rw [hst, List.length_dropLast, l2, l1]
      simp [initOverlay]
    refine ⟨hlen, hvis, ?_⟩
    have hne : (pushOverlay (pushOverlay initOverlay h1 t1) h2 t2).stack.dropLast ≠ [] := by
      intro habs
      rw [habs] at hst
      rw [hst] at hlen
      simp at hlen
    rw [popOverlay, if_pos hgt, renderOverlay_ne _ hne]
    simp only [List.length_dropLast, l2, l1]
    simp [initOverlay]
  · intro st hr
    induction hr with
    | init => exact ⟨by simp [initOverlay], by simp [initOverlay]⟩
    | push st' html title hr' ih =>
      rw [pushOverlay, renderOverlay_ne _ (by simp)]
      constructor
      · simp
      · simp
    | pop st' hr' ih =>
      by_cases h : 1 < st'.stack.length
      · have hne : st'.stack.dropLast ≠ [] := by
          intro habs
          have := congrArg List.length habs
          rw [List.length_dropLast] at this
          simp at this
          omega
        rw [popOverlay, if_pos h, renderOverlay_ne _ hne]
        constructor
        · have hge : 1 ≤ st'.stack.length - 1 := by omega
          simp [List.length_dropLast, hge]
        · simp
      · rw [popOverlay, if_neg h]
        exact ⟨by simp [closeOverlayCompletely, initOverlay],
          by simp [closeOverlayCompletely, initOverlay]⟩
    | close st' hr' ih =>
      exact ⟨by simp [closeOverlayCompletely, initOverlay],
        by simp [closeOverlayCompletely, initOverlay]⟩

theorem str_data_ne {s : String} (h : s ≠ "") : s.data ≠ [] := by
  intro habs
  apply h
  cases s
  simp_all

theorem noteCandScore_none_iff {np : String} (hne : np ≠ "") (el : FNode) :
    noteCandScore np el = none ↔ candContains np el = false := by
  rw [noteCandScore, candContains]
  by_cases ht : normalize (textContentF el) = ""
  · rw [ht]
    simp only [if_pos rfl]
    have : isSubstrL np.data ("" : String).data = false := by
      rw [isSubstrL]
      simpa [List.isEmpty_iff] using str_data_ne hne
    simp [this]
  · simp only [if_neg ht]
    by_cases hin : isSubstrL np.data (normalize (textContentF el)).data = true
    · simp [hin]
    · simp only [Bool.not_eq_true] at hin
      simp [hin]

theorem noteCandScore_of_contains {np : String} (hne : np ≠ "") {el : FNode}
    (hc : candContains np el = true) :
    noteCandScore np el = some (normalize (textContentF el)).length := by
  rw [noteCandScore]
  by_cases ht : normalize (textContentF el) = ""
  · exfalso
    rw [candContains, ht] at hc
    rw [show ("" : String).data = [] from rfl, isSubstrL] at hc
    rw [List.isEmpty_iff] at hc
    exact str_data_ne hne hc
  · rw [if_neg ht, candContains] at *
    rw [if_pos hc]

theorem noteCandScore_some_val {np : String} {el : FNode} {l : Nat}
    (h : noteCandScore np el = some l) :
    candContains np el = true ∧ l = (normalize (textContentF el)).length := by
  rw [noteCandScore] at h
  by_cases ht : normalize (textContentF el) = ""
  · rw [if_pos ht] at h
    exact absurd h (by simp)
  · rw [if_neg ht] at h
    by_cases hin : isSubstrL np.data (normalize (textContentF el)).data = true
    · rw [if_pos hin] at h
      rw [candContains]
      exact ⟨hin, (Option.some.injEq _ _ ▸ h).symm⟩
    · rw [Bool.not_eq_true] at hin
      rw [if_neg (by simp [hin])] at h
      exact absurd h (by simp)

theorem betterAcc_none {np : String} {cand : FNode × List FNode}
    (hs : noteCandScore np cand.1 = none)
    (acc : Option ((FNode × List FNode) × Nat)) :
    betterAcc np cand acc = acc := by
  unfold betterAcc
  rw [hs]

theorem betterAcc_some_none {np : String} {cand : FNode × List FNode} {len : Nat}
    (hs : noteCandScore np cand.1 = some len) :
    betterAcc np cand none = some (cand, len) := by
  unfold betterAcc
  rw [hs]

theorem betterAcc_some_some {np : String} {cand : FNode × List FNode} {len : Nat}
    (hs : noteCandScore np cand.1 = some len) (b : FNode × List FNode) (bl : Nat) :
    betterAcc np cand (some (b, bl)) =
      if len < bl then some (cand, len) else some (b, bl) := by
  unfold betterAcc
  rw [hs]

theorem bestLoop_some_ne_none (np : String) :
    (cands : List (FNode × List FNode)) → (x : (FNode × List FNode) × Nat) →
      bestLoop np cands (some x) ≠ none
  | [], x => by simp [bestLoop]
  | cand :: rest, x => by
    rw [bestLoop]
    cases hs : noteCandScore np cand.1 with
    | none =>
      rw [betterAcc_none hs]
      exact bestLoop_some_ne_none np rest x
    | some len =>
      obtain ⟨b, bl⟩ := x
      rw [betterAcc_some_some hs b bl]
      by_cases hlt : len < bl
      · rw [if_pos hlt]
        exact bestLoop_some_ne_none np rest (cand, len)
      · rw [if_neg hlt]
        exact bestLoop_some_ne_none np rest (b, bl)

theorem bestLoop_none_iff (np : String) :
    (cands : List (FNode × List FNode)) →
      (bestLoop np cands none = none ↔ ∀ c ∈ cands, noteCandScore np c.1 = none)
  | [] => by simp [bestLoop]
  | cand :: rest => by
    rw [bestLoop]
    cases hs : noteCandScore np cand.1 with
    | some len =>
      rw [betterAcc_some_none hs]
      constructor
      · intro habs
        exact absurd habs (bestLoop_some_ne_none np rest (cand, len))
      · intro hall
        have := hall cand (List.mem_cons_self cand rest)
        rw [hs] at this
        exact absurd this (by simp)
    | none =>
      rw [betterAcc_none hs]
      constructor
      · intro h c hc
        rcases List.mem_cons.mp hc with rfl | hc'
        · exact hs
        · exact (bestLoop_none_iff np rest).mp h c hc'
      · intro hall
        exact (bestLoop_none_iff np rest).mpr
          (fun c hc => hall c (List.mem_cons_of_mem cand hc))

theorem bestLoop_some_spec (np : String) :
    (cands : List (FNode × List FNode)) → (acc : Option ((FNode × List FNode) × Nat)) →
      (c : FNode × List FNode) → (l : Nat) →
      bestLoop np cands acc = some (c, l) →
      (acc = some (c, l) ∨ (c ∈ cands ∧ noteCandScore np c.1 = some l))
  | [], acc, c, l, h => by
    rw [bestLoop] at h
    exact Or.inl h
  | cand :: rest, acc, c, l, h => by
    rw [bestLoop] at h
    cases hs : noteCandScore np cand.1 with
    | none =>
      rw [betterAcc_none hs] at h
      rcases bestLoop_some_spec np rest acc c l h with h' | h'
      · exact Or.inl h'
      · exact Or.inr ⟨List.mem_cons_of_mem cand h'.1, h'.2⟩
    | some len =>
      cases acc with
      | none =>
        rw [betterAcc_some_none hs] at h
        rcases bestLoop_some_spec np rest (some (cand, len)) c l h with h' | h'
        · rw [Option.some.injEq] at h'
          have hc : c = cand := congrArg Prod.fst h'.symm
          have hl : l = len := congrArg Prod.snd h'.symm
          exact Or.inr ⟨hc ▸ List.mem_cons_self cand rest, by rw [hc, hs, hl]⟩
        · exact Or.inr ⟨List.mem_cons_of_mem cand h'.1, h'.2⟩
      | some p =>
        obtain ⟨b, bl⟩ := p
        rw [betterAcc_some_some hs b bl] at h
        by_cases hlt : len < bl
        · rw [if_pos hlt] at h
          rcases bestLoop_some_spec np rest (some (cand, len)) c l h with h' | h'
          · rw [Option.some.injEq] at h'
            have hc : c = cand := congrArg Prod.fst h'.symm
            have hl : l = len := congrArg Prod.snd h'.symm
            exact Or.inr ⟨hc ▸ List.mem_cons_self cand rest, by rw [hc, hs, hl]⟩
          · exact Or.inr ⟨List.mem_cons_of_mem cand h'.1, h'.2⟩
        · rw [if_neg hlt] at h
          rcases bestLoop_some_spec np rest (some (b, bl)) c l h with h' | h'
          · exact Or.inl h'
          · exact Or.inr ⟨List.mem_cons_of_mem cand h'.1, h'.2⟩

theorem bestLoop_min (np : String) :
    (cands : List (FNode × List FNode)) → (acc : Option ((FNode × List FNode) × Nat)) →
      (c : FNode × List FNode) → (l : Nat) →
      bestLoop np cands acc = some (c, l) →
      ((∀ c' ∈ cands, ∀ l', noteCandScore np c'.1 = some l' → l ≤ l') ∧
        (∀ b bl, acc = some (b, bl) → l ≤ bl))
  | [], acc, c, l, h => by
    rw [bestLoop] at h
    refine ⟨by simp, ?_⟩
    intro b bl hacc
    rw [hacc, Option.some.injEq] at h
    have : l = bl := congrArg Prod.snd h.symm
    omega
  | cand :: rest, acc, c, l, h => by
    rw [bestLoop] at h
    cases hs : noteCandScore np cand.1 with
    | none =>
      rw [betterAcc_none hs] at h
      obtain ⟨ih1, ih2⟩ := bestLoop_min np rest acc c l h
      refine ⟨?_, ih2⟩
      intro c' hc' l' hsc'
      rcases List.mem_cons.mp hc' with rfl | hmem
      · rw [hs] at hsc'
        exact absurd hsc' (by simp)
      · exact ih1 c' hmem l' hsc'
    | some len =>
      cases acc with
      | none =>
        rw [betterAcc_some_none hs] at h
        obtain ⟨ih1, ih2⟩ := bestLoop_min np rest (some (cand, len)) c l h
        have hlen : l ≤ len := ih2 cand len rfl
        refine ⟨?_, by simp⟩
        intro c' hc' l' hsc'
        rcases List.mem_cons.mp hc' with rfl | hmem
        · rw [hs, Option.some.injEq] at hsc'
          omega
        · exact ih1 c' hmem l' hsc'
      | some p =>
        obtain ⟨b, bl⟩ := p
        rw [betterAcc_some_some hs b bl] at h
        by_cases hlt : len < bl
        · rw [if_pos hlt] at h
          obtain ⟨ih1, ih2⟩ := bestLoop_min np rest (some (cand, len)) c l h
          have hlen : l ≤ len := ih2 cand len rfl
          refine ⟨?_, ?_⟩
          · intro c' hc' l' hsc'
            rcases List.mem_cons.mp hc' with rfl | hmem
            · rw [hs, Option.some.injEq] at hsc'
              omega
            · exact ih1 c' hmem l' hsc'
          · intro b' bl' hacc
            rw [Option.some.injEq] at hacc
            have : bl = bl' := congrArg Prod.snd hacc
            omega
        · rw [if_neg hlt] at h
          obtain ⟨ih1, ih2⟩ := bestLoop_min np rest (some (b, bl)) c l h
          have hbl : l ≤ bl := ih2 b bl rfl
          refine ⟨?_, ?_⟩
          · intro c' hc' l' hsc'
            rcases List.mem_cons.mp hc' with rfl | hmem
            · rw [hs, Option.some.injEq] at hsc'
              omega
            · exact ih1 c' hmem l' hsc'
          · intro b' bl' hacc
            rw [Option.some.injEq] at hacc
            have : bl = bl' := congrArg Prod.snd hacc
            omega

theorem collectCands_elem : (l : List FNode) → ∀ x ∈ collectCands l,
    ∃ t a cs, x.1 = FNode.elem t a cs
  | [], x, hx => by simp [collectCands] at hx
  | .text s :: rest, x, hx => by
    rw [collectCands] at hx
    exact collectCands_elem rest x hx
  | .elem t a cs :: rest, x, hx => by
    rw [collectCands] at hx
    rcases List.mem_append.mp hx with hx | hx
    · rcases List.mem_append.mp hx with hx | hx
      · by_cases hc : isCandTag t = true
        · rw [if_pos hc] at hx
          rw [List.mem_singleton] at hx
          exact ⟨t, a, cs, by rw [hx]⟩
        · rw [if_neg hc] at hx
          simp at hx
      · exact collectCands_elem cs x hx
    · exact collectCands_elem rest x hx

theorem outerHTMLF_elem_ne (t : String) (a : List (String × String)) (cs : List FNode) :
    outerHTMLF (FNode.elem t a cs) ≠ "" := by
  intro habs
  have hd : (outerHTMLF (FNode.elem t a cs)).data = [] := by rw [habs]
  rw [outerHTMLF] at hd
  have he : ("<" ++ t ++ attrsHtml a ++ ">" ++ innerHTMLFs cs ++ "</" ++ t ++ ">").data
      = '<' :: ((t.data ++ (attrsHtml a).data ++ ['>'] ++ (innerHTMLFs cs).data
          ++ "</".data ++ t.data) ++ ['>']) := by
    show ((((((['<'] ++ t.data) ++ (attrsHtml a).data) ++ ['>']) ++ (innerHTMLFs cs).data)
        ++ "</".data) ++ t.data) ++ ['>'] = _
    simp
  rw [he] at hd
  exact absurd hd (by simp)

theorem joinLines_ne {s : String} (hs : s ≠ "") (rest : List String) :
    joinLines (s :: rest) ≠ "" := by
  cases rest with
  | nil => exact hs
  | cons r rs =>
    intro habs
    have hd : (joinLines (s :: r :: rs)).data = [] := by rw [habs]
    rw [show joinLines (s :: r :: rs) = s ++ "\n" ++ joinLines (r :: rs) from rfl] at hd
    have he : ((s ++ "\n") ++ joinLines (r :: rs)).data
        = s.data ++ ('\n' :: (joinLines (r :: rs)).data) := by
      show (s.data ++ ['\n']) ++ (joinLines (r :: rs)).data = _
      simp
    rw [he] at hd
    rcases List.append_eq_nil.mp hd with ⟨-, h2⟩
    exact absurd h2 (by simp)

theorem buildSnippet_ne {el : FNode} (helem : ∃ t a cs, el = FNode.elem t a cs)
    (sibs : List FNode) : buildSnippet el sibs ≠ "" := by
  obtain ⟨t, a, cs, rfl⟩ := helem
  rw [buildSnippet]
  exact joinLines_ne (outerHTMLF_elem_ne t a cs) (snippetSibs 3 sibs)

/-- Claim C4 as stated is false at a clicked phrase with empty
normalized text: the candidate block's normalized text contains the
normalized phrase (the empty string is a substring of everything),
so the claim requires the matcher to return that block's snippet,
but the code returns no snippet. -/
theorem findNoteSnippet_cex :
    normalize "" = "" ∧
    (FNode.elem "p" [] [FNode.text "hello world"], ([] : List FNode)) ∈ collectCands exNotes ∧
    candContains (normalize "") (FNode.elem "p" [] [FNode.text "hello world"]) = true ∧
    findNoteSnippet "" exNotes = "" := by
  refine ⟨by decide, ?_, ?_, ?_⟩
  · simp [collectCands, exNotes, isCandTag, jsToLower]
  · have ht : textContentF (FNode.elem "p" [] [FNode.text "hello world"]) = "hello world" := by
      simp [textContentF, textContentFs]
    rw [candContains, ht]
    decide
  · have h0 : normalize "" = "" := by decide
    simp [findNoteSnippet, h0]

/-- Claim C4 amended: for every clicked phrase with non-empty
normalized text and every loaded annotations tree, the lookup yields
no snippet exactly when no candidate block (paragraph, generic
block, list item, definition-description) has normalized text
containing the normalized phrase; and when it yields a snippet, the
snippet belongs to a containing candidate of minimal normalized-text
length and equals that block's markup concatenated with at most
three immediately following sibling blocks, stopping before the
first sibling whose normalized text is empty. -/
theorem findNoteSnippet_spec (phrase : String) (notes : List FNode)
    (hne : normalize phrase ≠ "") :
    (findNoteSnippet phrase notes = "" ↔
      ∀ c ∈ collectCands notes, candContains (normalize phrase) c.1 = false) ∧
    (findNoteSnippet phrase notes ≠ "" →
      ∃ c ∈ collectCands notes,
        candContains (normalize phrase) c.1 = true ∧
        (∀ c' ∈ collectCands notes, candContains (normalize phrase) c'.1 = true →
          (normalize (textContentF c.1)).length ≤ (normalize (textContentF c'.1)).length) ∧
        findNoteSnippet phrase notes = buildSnippet c.1 c.2) := by
  have hval : findNoteSnippet phrase notes =
      (match bestLoop (normalize phrase) (collectCands notes) none with
       | some (cand, _) => buildSnippet cand.1 cand.2
       | none =>
         if isSubstrL (normalize phrase).data (normalize (textContentFs notes)).data
         then "" else "") := by
    rw [findNoteSnippet]
    simp only [if_neg hne]
  cases hb : bestLoop (normalize phrase) (collectCands notes) none with
  | none =>
    rw [hb] at hval
    have hres : findNoteSnippet phrase notes = "" := by
      rw [hval]
      by_cases hf : isSubstrL (normalize phrase).data (normalize (textContentFs notes)).data = true
      · rw [if_pos hf]
      · rw [if_neg (by simp [Bool.not_eq_true] at hf ⊢; exact hf)]
    constructor
    · rw [hres]
      constructor
      · intro _ c hc
        exact (noteCandScore_none_iff hne c.1).mp ((bestLoop_none_iff _ _).mp hb c hc)
      · intro _
        rfl
    · intro habs
      exact absurd hres habs
  | some pair =>
    obtain ⟨c, l⟩ := pair
    rw [hb] at hval
    have hmem : c ∈ collectCands notes ∧
        noteCandScore (normalize phrase) c.1 = some l := by
      rcases bestLoop_some_spec _ _ _ _ _ hb with h' | h'
      · exact absurd h' (by simp)
      · exact h'
    obtain ⟨hcont, hlval⟩ := noteCandScore_some_val hmem.2
    have hmin := (bestLoop_min _ _ _ _ _ hb).1
    have helem := collectCands_elem notes c hmem.1
    have hsnip : findNoteSnippet phrase notes = buildSnippet c.1 c.2 := hval
    have hne' : findNoteSnippet phrase notes ≠ "" := by
      rw [hsnip]
      exact buildSnippet_ne helem c.2
    constructor
    · constructor
      · intro habs
        exact absurd habs hne'
      · intro hall
        have := hall c hmem.1
        rw [hcont] at this
        exact absurd this (by simp)
    · intro _
      refine ⟨c, hmem.1, hcont, ?_, hsnip⟩
      intro c' hc' hcont'
      have hsc' := noteCandScore_of_contains hne hcont'
      have := hmin c' hc' _ hsc'
      omega

theorem findNoteSnippet_spec_witness :
    normalize "hello" ≠ "" ∧
      (findNoteSnippet "hello" exNotes = "" ↔
        ∀ c ∈ collectCands exNotes, candContains (normalize "hello") c.1 = false) :=
  ⟨by decide, (findNoteSnippet_spec "hello" exNotes (by decide)).1⟩

theorem overlay_state_machine_witness :
    ((pushOverlay initOverlay "x" "t").stack.length = initOverlay.stack.length + 1 ∧
      (pushOverlay initOverlay "x" "t").visible = true) ∧
    (1 < (pushOverlay (pushOverlay initOverlay "a" "b") "c" "d").stack.length) ∧
    ((popOverlay (pushOverlay (pushOverlay initOverlay "a" "b") "c" "d")).stack =
      (pushOverlay (pushOverlay initOverlay "a" "b") "c" "d").stack.dropLast) ∧
    ReachableOv (pushOverlay initOverlay "x" "t") ∧
    (((pushOverlay initOverlay "x" "t").visible = true) ↔
      1 ≤ (pushOverlay initOverlay "x" "t").stack.length) :=
  ⟨overlay_state_machine.1 initOverlay "x" "t",
    by decide,
    (overlay_state_machine.2.1 _ (by decide)).1,
    ReachableOv.push initOverlay "x" "t" ReachableOv.init,
    (overlay_state_machine.2.2.2.2.2 _
      (ReachableOv.push initOverlay "x" "t" ReachableOv.init)).1⟩

end AdaMobile
